import Mathlib

set_option linter.unusedVariables false

/-
Verification of the schema post-processing and runtime helpers of
kube_custom_resource (src/kube_custom_resource/schema.py and
src/kube_custom_resource/runtime_utils.py).

JSON values are modelled as a tree: Python dicts become insertion-ordered
association lists with string keys, Python lists become lists.  The in-place
mutation of the Python code is modelled by returning the new value; for
resolve_refs, which also mutates the shared definitions dict, the definitions
are threaded through and the mutation of definitions[ref] is modelled by
writing the resolved entry back.  Recursion that the Python runtime bounds
only by its call stack is modelled with explicit fuel; exhausted fuel and the
exceptions the Python code can raise (KeyError / TypeError / ValueError on
malformed schemas) are both rendered as a result of none.
-/

/-- Tree of JSON values as the schema generator produces them. -/
inductive Json where
  | null : Json
  | bool : Bool → Json
  | num : Int → Json
  | str : String → Json
  | arr : List Json → Json
  | obj : List (String × Json) → Json

abbrev Entries := List (String × Json)

/-- Lookup of a key in an insertion-ordered dict (Python d[k] / d.get(k)). -/
def alookup : Entries → String → Option Json
  | [], _ => none
  | (k, v) :: rest, key => if k = key then some v else alookup rest key

/-- Removal of a key (Python d.pop(key, ...)). -/
def dictErase : Entries → String → Entries
  | [], _ => []
  | (k, v) :: rest, key =>
    if k = key then dictErase rest key else (k, v) :: dictErase rest key

/-- Assignment d[key] = v: replaces the value in place when the key is
present, appends at the end otherwise, as a Python dict does. -/
def dictInsert : Entries → String → Json → Entries
  | [], key, v => [(key, v)]
  | (k, w) :: rest, key, v =>
    if k = key then (key, v) :: rest else (k, w) :: dictInsert rest key v

/-- Python d1.update(d2): assigns every entry of d2 into d1, in order. -/
def dictUpdate (d1 d2 : Entries) : Entries :=
  d2.foldl (fun acc e => dictInsert acc e.1 e.2) d1

def isObjB : Json → Bool
  | .obj _ => true
  | _ => false

/-- Keys of the entry list are pairwise distinct (always true of a list that
models an actual Python dict). -/
def nodupKeysB : Entries → Bool
  | [] => true
  | (k, _) :: rest => !(rest.any (fun e => e.1 == k)) && nodupKeysB rest

/-- Python ref.removeprefix("#/$defs/") from resolve_refs. -/
def stripRef (s : String) : String :=
  if "#/$defs/".data.isPrefixOf s.data then String.mk (s.data.drop 8) else s

mutual
/-- No object node anywhere in the tree carries the given key. -/
def noKeyB (key : String) : Json → Bool
  | .arr items => noKeyListB key items
  | .obj entries => noKeyEntriesB key entries
  | _ => true
def noKeyListB (key : String) : List Json → Bool
  | [] => true
  | x :: xs => noKeyB key x && noKeyListB key xs
def noKeyEntriesB (key : String) : Entries → Bool
  | [] => true
  | (k, v) :: rest => k != key && noKeyB key v && noKeyEntriesB key rest
end

/-- Names of the definitions referenced by the value of a "$ref" entry. -/
def refNameOf : Json → List String
  | .str s => [stripRef s]
  | _ => []

mutual
/-- All definition names referenced by "$ref" entries anywhere in the tree. -/
def refsInJ : Json → List String
  | .arr items => refsInList items
  | .obj entries => refsInEntries entries
  | _ => []
def refsInList : List Json → List String
  | [] => []
  | x :: xs => refsInJ x ++ refsInList xs
def refsInEntries : Entries → List String
  | [] => []
  | (k, v) :: rest =>
    (if k = "$ref" then refNameOf v else []) ++ refsInJ v ++ refsInEntries rest
end

/-- Shape of an "allOf" value that the resolver can always re-traverse: an
array whose elements are all objects. -/
def allOfArrObjsB : Json → Bool
  | .arr items => items.all isObjB
  | _ => false

mutual
/-- Fully resolved subtree: no "$ref" or "$defs" key anywhere, the keys of
every object node are distinct, and every "allOf" value is an array of
objects.  This is what the resolver outputs on sane input, and such a tree is
again sane (clean_sane below). -/
def cleanB : Json → Bool
  | .arr items => cleanListB items
  | .obj entries => nodupKeysB entries && cleanEntriesB entries
  | _ => true
def cleanListB : List Json → Bool
  | [] => true
  | x :: xs => cleanB x && cleanListB xs
def cleanEntriesB : Entries → Bool
  | [] => true
  | (k, v) :: rest =>
    k != "$ref" && k != "$defs" && (k != "allOf" || allOfArrObjsB v) &&
      cleanB v && cleanEntriesB rest
end

/-- Every entry other than the skipped key has a fully resolved value. -/
def sibsCleanB (skip : String) (es : Entries) : Bool :=
  es.all (fun e => e.1 == skip || cleanB e.2)

/-- Branch discipline for one object node relative to the set K of definition
names, mirroring the branch resolve_refs takes on it: a single-item allOf has
an object item and fully resolved siblings (pydantic only puts scalar keywords
such as default or description next to an allOf wrapper) and no "$ref"
sibling; a multi-item allOf is an array of objects with no "$ref" sibling; a
"$ref" is a string naming a definition in K with fully resolved siblings. -/
def saneShapeB (K : List String) (entries : Entries) : Bool :=
  match alookup entries "allOf" with
  | some (.arr [item]) =>
      isObjB item && (alookup entries "$ref").isNone && sibsCleanB "allOf" entries
  | some (.arr items) => items.all isObjB && (alookup entries "$ref").isNone
  | some _ => false
  | none =>
    match alookup entries "$ref" with
    | some (.str s) => K.contains (stripRef s) && sibsCleanB "$ref" entries
    | some _ => false
    | none => true

mutual
/-- Pydantic-like schema tree relative to the definition names K: every object
node has distinct keys, carries no nested "$defs", and obeys saneShapeB. -/
def saneB (K : List String) : Json → Bool
  | .arr items => saneListB K items
  | .obj entries =>
      nodupKeysB entries && (alookup entries "$defs").isNone &&
        saneShapeB K entries && saneEntriesB K entries
  | _ => true
def saneListB (K : List String) : List Json → Bool
  | [] => true
  | x :: xs => saneB K x && saneListB K xs
def saneEntriesB (K : List String) : Entries → Bool
  | [] => true
  | (k, v) :: rest => saneB K v && saneEntriesB K rest
end

/-- Outcome of the test `"allOf" in schema and len(schema["allOf"]) == 1` at
the head of resolve_refs, together with what follows it: single means the
branch is taken with that item; failure means the Python code raises (len()
of a value with no length, or schema.pop("allOf")[0] on a value that is not a
list); skip means the test is false and control falls to the elif. -/
inductive AllOfStep where
  | single (item : Json)
  | failure
  | skip

def allOfStep (entries : Entries) : AllOfStep :=
  match alookup entries "allOf" with
  | none => .skip
  | some (.arr [item]) => .single item
  | some (.arr _) => .skip
  | some (.str s) => if s.length == 1 then .failure else .skip
  | some (.obj es) => if es.length == 1 then .failure else .skip
  | some _ => .failure

mutual
/-- Model of schema.resolve_refs.  The mutation of the schema argument is
modelled by returning the new tree; the in-place resolution of
definitions[ref] (referenced and definitions[ref] are the same Python object)
is modelled by writing the resolved body back with dictInsert.  none models
both fuel exhaustion and the exceptions the Python code raises on malformed
input (missing definition, non-string "$ref", update() with a non-dict). -/
def resolveRefs : Nat → Json → Entries → Option (Json × Entries)
  | 0, _, _ => none
  | fuel + 1, schema, definitions =>
    match schema with
    | .obj entries =>
      match allOfStep entries with
      | .single item =>
        -- items = schema.pop("allOf")[0]; resolve_refs(items, definitions);
        -- schema.update(items)
        match resolveRefs fuel item definitions with
        | some (.obj itemEntries, defs1) =>
            some (.obj (dictUpdate (dictErase entries "allOf") itemEntries), defs1)
        | some _ => none
        | none => none
      | .failure => none
      | .skip =>
        match alookup entries "$ref" with
        | some (.str refValue) =>
          -- ref = schema.pop("$ref").removeprefix("#/$defs/");
          -- referenced = definitions[ref]; resolve_refs(referenced, definitions);
          -- schema.update(definitions[ref])
          match alookup definitions (stripRef refValue) with
          | some referenced =>
            match resolveRefs fuel referenced definitions with
            | some (.obj refEntries, defs1) =>
                some (.obj (dictUpdate (dictErase entries "$ref") refEntries),
                      dictInsert defs1 (stripRef refValue) (.obj refEntries))
            | some _ => none
            | none => none
          | none => none
        | some _ => none
        | none =>
          -- for value in schema.values(): resolve_refs(value, definitions)
          match resolveEntries fuel entries definitions with
          | some (entries1, defs1) => some (.obj entries1, defs1)
          | none => none
    | .arr items =>
      -- for item in schema: resolve_refs(item, definitions)
      match resolveList fuel items definitions with
      | some (items1, defs1) => some (.arr items1, defs1)
      | none => none
    | other => some (other, definitions)
def resolveEntries : Nat → Entries → Entries → Option (Entries × Entries)
  | 0, _, _ => none
  | _ + 1, [], definitions => some ([], definitions)
  | fuel + 1, (k, v) :: rest, definitions =>
    match resolveRefs fuel v definitions with
    | some (v1, defs1) =>
      match resolveEntries fuel rest defs1 with
      | some (rest1, defs2) => some ((k, v1) :: rest1, defs2)
      | none => none
    | none => none
def resolveList : Nat → List Json → Entries → Option (List Json × Entries)
  | 0, _, _ => none
  | _ + 1, [], definitions => some ([], definitions)
  | fuel + 1, x :: xs, definitions =>
    match resolveRefs fuel x definitions with
    | some (x1, defs1) =>
      match resolveList fuel xs defs1 with
      | some (xs1, defs2) => some (x1 :: xs1, defs2)
      | none => none
    | none => none
end

mutual
/-- Model of schema.remove_fields.  The Python code first pops every listed
field from a dict that carries a "type" key and then recurses into the
remaining values; here the popped entries are dropped and the kept entries'
values are recursed into in one pass over the entry list, which yields the
same dict. -/
def removeFields (fields : List String) : Json → Json
  | .obj entries =>
      .obj (removeFieldsEntries fields (alookup entries "type").isSome entries)
  | .arr items => .arr (removeFieldsList fields items)
  | other => other
def removeFieldsEntries (fields : List String) (strip : Bool) : Entries → Entries
  | [] => []
  | (k, v) :: rest =>
    if strip && fields.contains k then removeFieldsEntries fields strip rest
    else (k, removeFields fields v) :: removeFieldsEntries fields strip rest
def removeFieldsList (fields : List String) : List Json → List Json
  | [] => []
  | x :: xs => removeFields fields x :: removeFieldsList fields xs
end

mutual
/-- Every object node of the tree that carries a "type" key carries none of
the given fields. -/
def strippedOkB (fields : List String) : Json → Bool
  | .obj entries =>
      (!(alookup entries "type").isSome ||
        fields.all (fun f => (alookup entries f).isNone)) &&
      strippedOkEntriesB fields entries
  | .arr items => strippedOkListB fields items
  | _ => true
def strippedOkListB (fields : List String) : List Json → Bool
  | [] => true
  | x :: xs => strippedOkB fields x && strippedOkListB fields xs
def strippedOkEntriesB (fields : List String) : Entries → Bool
  | [] => true
  | (k, v) :: rest => strippedOkB fields v && strippedOkEntriesB fields rest
end

/-- Entries of the "$defs" value: its dict entries when it is a dict, and the
empty dict otherwise (see model_json_schema below for the non-dict case). -/
def defsEntries : Json → Entries
  | .obj ds => ds
  | _ => []

/-- Model of BaseModel.model_json_schema.  The schema argument is the dict
returned by the underlying pydantic model_json_schema call.  Python pops
"$defs" from the schema before resolve_refs runs (arguments are evaluated
left to right), so the resolver sees the schema without that key.  A "$defs"
value that is not a dict is passed through to resolve_refs, where any access
definitions[ref] raises; that is modelled by resolving against the empty
dict, where the lookup yields none. -/
def model_json_schema (fuel : Nat) (include_defaults : Bool) (schema : Entries) :
    Option Json :=
  match alookup schema "$defs" with
  | some defsValue =>
    match resolveRefs fuel (.obj (dictErase schema "$defs")) (defsEntries defsValue) with
    | some (resolved, _) =>
        some (if include_defaults then resolved else removeFields ["default"] resolved)
    | none => none
  | none =>
    some (if include_defaults then .obj schema
          else removeFields ["default"] (.obj schema))

/-- Hypothesis package for a definitions dict: every name of K resolves, and
every body is an object satisfying saneB. -/
def goodDefsB (K : List String) (d : Entries) : Bool :=
  K.all (fun n => (alookup d n).isSome) &&
    d.all (fun e => isObjB e.2 && saneB K e.2)

/-- Acyclicity of the "$ref" dependency graph over the definitions, witnessed
by a rank function: every reference made by a definition body has strictly
smaller rank than the definition itself. -/
def rankOkB (rank : String → Nat) (d : Entries) : Bool :=
  d.all (fun e => (refsInJ e.2).all (fun m => decide (rank m < rank e.1)))

/-- Entry-level proposition form of goodDefsB, used through the proofs. -/
def GoodDefsP (K : List String) (d : Entries) : Prop :=
  (∀ n ∈ K, (alookup d n).isSome = true) ∧
  (∀ e ∈ d, isObjB e.2 = true ∧ saneB K e.2 = true)

/-- After a resolver step, every definitions entry is either an entry of the
original dict or has been replaced by a fully resolved object body. -/
def DefsRefined (d d' : Entries) : Prop :=
  ∀ e ∈ d', e ∈ d ∨ (isObjB e.2 = true ∧ cleanB e.2 = true)

/-- Every name that resolved in the definitions dict still resolves. -/
def DefsMono (d d' : Entries) : Prop :=
  ∀ n, (alookup d n).isSome = true → (alookup d' n).isSome = true

/-- Entry-level proposition form of rankOkB. -/
def RankOkP (rank : String → Nat) (d : Entries) : Prop :=
  ∀ e ∈ d, ∀ m ∈ refsInJ e.2, rank m < rank e.1

/-- Relation between an entry of a traversed dict and its resolved form. -/
def EntryResolved (e e' : String × Json) : Prop :=
  e'.1 = e.1 ∧ cleanB e'.2 = true ∧
    (∀ l, e.2 = .arr l → l.all isObjB = true →
      ∃ l', e'.2 = .arr l' ∧ l'.all isObjB = true)

/-- Relation between an element of a traversed list and its resolved form. -/
def ItemResolved (x x' : Json) : Prop :=
  cleanB x' = true ∧ (isObjB x = true → isObjB x' = true)

/-- Keys StructuralUnion.__get_pydantic_json_schema__ passes to remove_fields
for every anyOf member. -/
def structuralUnionStrippedFields : List String :=
  ["description", "type", "default", "additionalProperties", "nullable",
   "x-kubernetes-preserve-unknown-fields"]

/-- Loop body of StructuralUnion.__get_pydantic_json_schema__ over the member
schemas (each the result of union_type.model_json_schema()): accumulates the
properties union and the stripped anyOf members.  none models the Python
exceptions on a member schema that is not a dict or whose "properties" is not
a dict (KeyError / TypeError); the deepcopies need no model here because the
embedding is pure. -/
def structuralUnionFold : List Json → Entries → List Json → Option (Entries × List Json)
  | [], props, anyOf => some (props, anyOf)
  | s :: rest, props, anyOf =>
    match s with
    | .obj es =>
      match alookup es "properties" with
      | some (.obj ps) =>
          structuralUnionFold rest (dictUpdate props ps)
            (anyOf ++ [removeFields structuralUnionStrippedFields s])
      | _ => none
    | _ => none

/-- Model of StructuralUnion.__get_pydantic_json_schema__, abstracted over the
member schemas and the class docstring (None or "" is falsy in Python, so no
description is added then). -/
def structuralUnionJsonSchema (memberSchemas : List Json) (doc : Option String) :
    Option Json :=
  match structuralUnionFold memberSchemas [] [] with
  | none => none
  | some (props, anyOf) =>
    let base : Entries :=
      [("type", .str "object"), ("properties", .obj props), ("anyOf", .arr anyOf)]
    some (.obj (match doc with
      | some d => if d = "" then base else dictInsert base "description" (.str d)
      | none => base))

/-- Model of Any.__get_pydantic_json_schema__ after the handler call: sets the
custom pruning-protection attribute on the handler's schema. -/
def anyGetJsonSchema (json_schema : Entries) : Entries :=
  dictInsert json_schema "x-kubernetes-preserve-unknown-fields" (.bool true)

/-- Model of Dict.__get_pydantic_json_schema__ after the handler call (the
body is the same as for Any). -/
def dictGetJsonSchema (json_schema : Entries) : Entries :=
  dictInsert json_schema "x-kubernetes-preserve-unknown-fields" (.bool true)

/-- Python prop.pop("title", None) for one property value.  A property value
that is not a dict would raise AttributeError in Python; such values do not
occur in generated schemas and are passed through here. -/
def popTitle : Json → Json
  | .obj es => .obj (dictErase es "title")
  | v => v

/-- Model of BaseModel.__get_pydantic_json_schema__ after the super() call:
pops the title, pops each property's title, and adds the pruning-protection
attribute exactly when the model config sets extra to "allow".  extra models
cls.model_config.get("extra"). -/
def baseModelGetJsonSchema (extra : Option String) (json_schema : Entries) : Entries :=
  let es1 := dictErase json_schema "title"
  let es2 :=
    match alookup es1 "properties" with
    | some (.obj ps) =>
        dictInsert es1 "properties" (.obj (ps.map (fun p => (p.1, popTitle p.2))))
    | _ => es1
  if extra = some "allow" then
    dictInsert es2 "x-kubernetes-preserve-unknown-fields" (.bool true)
  else es2

/-- easykube ApiError, reduced to the status code Mapper.fetch inspects. -/
structure ApiError where
  status_code : Nat

/-- Model of Mapper.fetch, abstracted over the underlying resource fetch: the
argument is what await resource.fetch(...) did (ok data, or an ApiError), and
model_validate is the model class validation. -/
def mapperFetch {Data Model : Type} (model_validate : Data → Model)
    (fetchResult : Except ApiError Data) : Except ApiError (Option Model) :=
  match fetchResult with
  | .error exc => if exc.status_code = 404 then .ok none else .error exc
  | .ok data => .ok (some (model_validate data))

/-- Metadata of a custom resource instance, reduced to the fields the Mapper
operations touch ("namespace" is a reserved word in Lean, hence nspace). -/
structure Metadata where
  name : String
  nspace : Option String
  resource_version : String
  finalizers : List String

/-- In-memory custom resource instance. -/
structure ModelInstance (Spec Status : Type) where
  metadata : Metadata
  spec : Spec
  status : Status

/-- Model of Mapper.save_instance: the body sent to resource.replace is the
instance dump; newRV models data["metadata"]["resourceVersion"] of the API
response, the only field the method writes back to the instance. -/
def save_instance {Spec Status : Type} (newRV : String)
    (inst : ModelInstance Spec Status) : ModelInstance Spec Status :=
  { inst with metadata := { inst.metadata with resource_version := newRV } }

/-- Model of Mapper.ensure_finalizer.  The second component records whether
save_instance (an API write) ran. -/
def ensure_finalizer {Spec Status : Type} (newRV : String)
    (inst : ModelInstance Spec Status) (finalizer : String) :
    ModelInstance Spec Status × Bool :=
  if finalizer ∉ inst.metadata.finalizers then
    (save_instance newRV
      { inst with metadata :=
        { inst.metadata with finalizers := inst.metadata.finalizers ++ [finalizer] } },
     true)
  else (inst, false)

/-- Model of Mapper.remove_finalizer.  Python finds idx with list.index (the
first occurrence, ValueError when absent, which the method turns into
returning the instance unchanged) and pops it; index-then-pop of the first
occurrence is List.erase.  The second component records whether save_instance
(an API write) ran. -/
def remove_finalizer {Spec Status : Type} (newRV : String)
    (inst : ModelInstance Spec Status) (finalizer : String) :
    ModelInstance Spec Status × Bool :=
  if finalizer ∈ inst.metadata.finalizers then
    (save_instance newRV
      { inst with metadata :=
        { inst.metadata with finalizers := inst.metadata.finalizers.erase finalizer } },
     true)
  else (inst, false)

/-- Model of Mapper.save_instance_status: returns the body sent to the status
subresource's replace call and the updated instance.  statusDump models
instance.status.model_dump with its exclude_defaults keyword as first
argument; newRV models data["metadata"]["resourceVersion"] of the response. -/
def save_instance_status {Spec Status : Type} (statusDump : Bool → Status → Json)
    (newRV : String) (inst : ModelInstance Spec Status) :
    Json × ModelInstance Spec Status :=
  (.obj [("metadata", .obj [("resourceVersion", .str inst.metadata.resource_version)]),
         ("status", statusDump true inst.status)],
   { inst with metadata := { inst.metadata with resource_version := newRV } })

/-- Python name.split("_") on the character list of the string: consecutive
separators yield empty segments and the empty string yields one empty
segment, exactly as str.split with an explicit separator does. -/
def splitOnChar (sep : Char) : List Char → List (List Char)
  | [] => [[]]
  | c :: cs =>
    match splitOnChar sep cs with
    | [] => [[c]]
    | seg :: rest => if c = sep then [] :: seg :: rest else (c :: seg) :: rest

/-- Python str.capitalize on a character list: first character upper-cased,
the rest lower-cased (ASCII, which covers the identifiers this code names). -/
def capitalize : List Char → List Char
  | [] => []
  | c :: cs => c.toUpper :: cs.map Char.toLower

/-- Model of schema.snake_to_pascal on character lists: the first segment is
kept, later segments are capitalized, and everything is joined without a
separator. -/
def snakeToPascalCore (l : List Char) : List Char :=
  match splitOnChar '_' l with
  | [] => []
  | first :: rest => first ++ (rest.map capitalize).flatten

/-- Model of schema.snake_to_pascal. -/
def snake_to_pascal (name : String) : String :=
  String.mk (snakeToPascalCore name.data)

/-! ## Association list lemmas -/

theorem alookup_eq_none {es : Entries} {key : String} :
    alookup es key = none ↔ ∀ e ∈ es, e.1 ≠ key := by
  induction es with
  | nil => simp [alookup]
  | cons e rest ih =>
    obtain ⟨k, v⟩ := e
    by_cases h : k = key <;> simp [alookup, h, ih]

theorem alookup_mem {es : Entries} {key : String} {v : Json}
    (h : alookup es key = some v) : (key, v) ∈ es := by
  induction es with
  | nil => simp [alookup] at h
  | cons e rest ih =>
    obtain ⟨k, w⟩ := e
    by_cases hk : k = key
    · subst hk
      simp [alookup] at h
      simp [h]
    · simp [alookup, hk] at h
      exact List.mem_cons_of_mem _ (ih h)

theorem dictErase_cons_self {k0 : String} {v0 : Json} {rest : Entries} :
    dictErase ((k0, v0) :: rest) k0 = dictErase rest k0 := by
  simp [dictErase]

theorem dictErase_cons_ne {k0 key : String} {v0 : Json} {rest : Entries}
    (h : ¬ k0 = key) :
    dictErase ((k0, v0) :: rest) key = (k0, v0) :: dictErase rest key := by
  simp [dictErase, h]

theorem dictInsert_cons_self {k0 : String} {v0 v : Json} {rest : Entries} :
    dictInsert ((k0, v0) :: rest) k0 v = (k0, v) :: rest := by
  simp [dictInsert]

theorem dictInsert_cons_ne {k0 key : String} {v0 v : Json} {rest : Entries}
    (h : ¬ k0 = key) :
    dictInsert ((k0, v0) :: rest) key v = (k0, v0) :: dictInsert rest key v := by
  simp [dictInsert, h]

theorem alookup_cons_self {k0 : String} {v0 : Json} {rest : Entries} :
    alookup ((k0, v0) :: rest) k0 = some v0 := by
  simp [alookup]

theorem alookup_cons_ne {k0 key : String} {v0 : Json} {rest : Entries}
    (h : ¬ k0 = key) :
    alookup ((k0, v0) :: rest) key = alookup rest key := by
  simp [alookup, h]

theorem mem_dictErase {e : String × Json} {es : Entries} {key : String} :
    e ∈ dictErase es key ↔ e ∈ es ∧ e.1 ≠ key := by
  induction es with
  | nil => simp [dictErase]
  | cons e0 rest ih =>
    obtain ⟨k0, v0⟩ := e0
    by_cases h0 : k0 = key
    · subst h0
      rw [dictErase_cons_self, ih]
      simp only [List.mem_cons]
      constructor
      · rintro ⟨h1, h2⟩; exact ⟨Or.inr h1, h2⟩
      · rintro ⟨h1 | h1, h2⟩
        · subst h1; simp at h2
        · exact ⟨h1, h2⟩
    · rw [dictErase_cons_ne h0]
      simp only [List.mem_cons, ih]
      constructor
      · rintro (h1 | ⟨h1, h2⟩)
        · subst h1; exact ⟨Or.inl rfl, h0⟩
        · exact ⟨Or.inr h1, h2⟩
      · rintro ⟨h1 | h1, h2⟩
        · exact Or.inl h1
        · exact Or.inr ⟨h1, h2⟩

theorem alookup_dictErase {es : Entries} {key k : String} :
    alookup (dictErase es key) k = if k = key then none else alookup es k := by
  induction es with
  | nil => by_cases hk : k = key <;> simp [dictErase, alookup, hk]
  | cons e rest ih =>
    obtain ⟨k0, v0⟩ := e
    by_cases h0 : k0 = key
    · subst h0
      rw [dictErase_cons_self, ih]
      by_cases hk : k = k0
      · simp [hk]
      · have h2 : ¬ k0 = k := fun hx => hk hx.symm
        rw [alookup_cons_ne h2]
    · rw [dictErase_cons_ne h0]
      by_cases hk : k0 = k
      · subst hk
        rw [alookup_cons_self]
        have h2 : ¬ k0 = key := h0
        simp [h2, alookup_cons_self]
      · rw [alookup_cons_ne hk, ih, alookup_cons_ne hk]

theorem mem_dictInsert {p : String × Json} {es : Entries} {key : String} {v : Json}
    (h : p ∈ dictInsert es key v) : p = (key, v) ∨ p ∈ es := by
  induction es with
  | nil =>
    simp only [dictInsert, List.mem_singleton] at h
    exact Or.inl h
  | cons e rest ih =>
    obtain ⟨k0, v0⟩ := e
    by_cases h0 : k0 = key
    · subst h0
      rw [dictInsert_cons_self] at h
      rcases List.mem_cons.mp h with h1 | h1
      · exact Or.inl h1
      · exact Or.inr (List.mem_cons_of_mem _ h1)
    · rw [dictInsert_cons_ne h0] at h
      rcases List.mem_cons.mp h with h1 | h1
      · exact Or.inr (by simp [h1])
      · rcases ih h1 with h2 | h2
        · exact Or.inl h2
        · exact Or.inr (List.mem_cons_of_mem _ h2)

theorem alookup_dictInsert {es : Entries} {key k : String} {v : Json} :
    alookup (dictInsert es key v) k = if k = key then some v else alookup es k := by
  induction es with
  | nil =>
    by_cases hk : k = key
    · subst hk; simp [dictInsert, alookup]
    · have h2 : ¬ key = k := fun hx => hk hx.symm
      simp [dictInsert, alookup, hk, h2]
  | cons e rest ih =>
    obtain ⟨k0, v0⟩ := e
    by_cases h0 : k0 = key
    · subst h0
      rw [dictInsert_cons_self]
      by_cases hk : k = k0
      · subst hk; rw [alookup_cons_self]; simp
      · have h2 : ¬ k0 = k := fun hx => hk hx.symm
        rw [alookup_cons_ne h2, alookup_cons_ne h2]
        simp [hk]
    · rw [dictInsert_cons_ne h0]
      by_cases hk : k0 = k
      · subst hk
        rw [alookup_cons_self, alookup_cons_self]
        have h2 : ¬ k0 = key := h0
        simp [h2]
      · rw [alookup_cons_ne hk, alookup_cons_ne hk, ih]

theorem mem_dictUpdate {p : String × Json} {a b : Entries}
    (h : p ∈ dictUpdate a b) : p ∈ a ∨ p ∈ b := by
  induction b generalizing a with
  | nil => exact Or.inl (by simpa [dictUpdate] using h)
  | cons e rest ih =>
    have h1 : p ∈ dictUpdate (dictInsert a e.1 e.2) rest := by
      simpa [dictUpdate] using h
    rcases ih h1 with h2 | h2
    · rcases mem_dictInsert h2 with h3 | h3
      · exact Or.inr (by simp [h3])
      · exact Or.inl h3
    · exact Or.inr (List.mem_cons_of_mem _ h2)

theorem isSome_alookup_dictInsert {es : Entries} {key n : String} {v : Json}
    (h : (alookup es n).isSome = true) :
    (alookup (dictInsert es key v) n).isSome = true := by
  rw [alookup_dictInsert]
  by_cases hk : n = key <;> simp [hk, h]

/-! ## Key distinctness -/

theorem nodupKeysB_cons {k : String} {v : Json} {rest : Entries} :
    nodupKeysB ((k, v) :: rest) = true ↔
      (∀ e ∈ rest, e.1 ≠ k) ∧ nodupKeysB rest = true := by
  simp only [nodupKeysB, Bool.and_eq_true, Bool.not_eq_true']
  rw [List.any_eq_false]
  simp [ne_eq]

theorem alookup_of_mem_nodup {es : Entries} (h : nodupKeysB es = true)
    {k : String} {v : Json} (hm : (k, v) ∈ es) : alookup es k = some v := by
  induction es with
  | nil => simp at hm
  | cons e rest ih =>
    obtain ⟨k0, v0⟩ := e
    rw [nodupKeysB_cons] at h
    rcases List.mem_cons.mp hm with h1 | h1
    · cases h1
      exact alookup_cons_self
    · by_cases hk : k0 = k
      · subst hk
        exact absurd rfl (h.1 _ h1)
      · rw [alookup_cons_ne hk]
        exact ih h.2 h1

theorem nodupKeysB_dictErase {es : Entries} {key : String}
    (h : nodupKeysB es = true) : nodupKeysB (dictErase es key) = true := by
  induction es with
  | nil => simp [dictErase, nodupKeysB]
  | cons e rest ih =>
    obtain ⟨k0, v0⟩ := e
    rw [nodupKeysB_cons] at h
    by_cases h0 : k0 = key
    · rw [h0, dictErase_cons_self]
      exact ih h.2
    · rw [dictErase_cons_ne h0, nodupKeysB_cons]
      refine ⟨fun e he => ?_, ih h.2⟩
      exact h.1 e (mem_dictErase.mp he).1

theorem nodupKeysB_dictInsert {es : Entries} {key : String} {v : Json}
    (h : nodupKeysB es = true) : nodupKeysB (dictInsert es key v) = true := by
  induction es with
  | nil => simp [dictInsert, nodupKeysB]
  | cons e rest ih =>
    obtain ⟨k0, v0⟩ := e
    rw [nodupKeysB_cons] at h
    by_cases h0 : k0 = key
    · subst h0
      rw [dictInsert_cons_self, nodupKeysB_cons]
      exact h
    · rw [dictInsert_cons_ne h0, nodupKeysB_cons]
      refine ⟨fun e he => ?_, ih h.2⟩
      rcases mem_dictInsert he with h1 | h1
      · rw [h1]
        exact fun hx => h0 hx.symm
      · exact h.1 e h1

theorem nodupKeysB_dictUpdate {a b : Entries} (h : nodupKeysB a = true) :
    nodupKeysB (dictUpdate a b) = true := by
  induction b generalizing a with
  | nil => simpa [dictUpdate] using h
  | cons e rest ih =>
    have h1 : dictUpdate a (e :: rest) = dictUpdate (dictInsert a e.1 e.2) rest := by
      simp [dictUpdate]
    rw [h1]
    exact ih (nodupKeysB_dictInsert h)

/-! ## Size-based induction over the JSON tree -/

theorem json_sizeInduction {P : Json → Prop}
    (step : ∀ t, (∀ u, sizeOf u < sizeOf t → P u) → P t) : ∀ t, P t := by
  intro t
  have h : ∀ n, ∀ u : Json, sizeOf u < n → P u := by
    intro n
    induction n with
    | zero => intro u hu; omega
    | succ m ih => intro u hu; exact step u (fun w hw => ih w (by omega))
  exact step t (fun u hu => h (sizeOf t) u hu)

theorem sizeOf_lt_arr {x : Json} {l : List Json} (h : x ∈ l) :
    sizeOf x < sizeOf (Json.arr l) := by
  have h1 := List.sizeOf_lt_of_mem h
  simp only [Json.arr.sizeOf_spec]
  omega

theorem sizeOf_lt_obj {k : String} {v : Json} {es : Entries} (h : (k, v) ∈ es) :
    sizeOf v < sizeOf (Json.obj es) := by
  have h1 := List.sizeOf_lt_of_mem h
  have h2 : sizeOf (k, v) = 1 + sizeOf k + sizeOf v := by simp
  simp only [Json.obj.sizeOf_spec]
  omega

/-! ## Characterizations of the Boolean tree predicates -/

theorem saneListB_iff {K : List String} {l : List Json} :
    saneListB K l = true ↔ ∀ x ∈ l, saneB K x = true := by
  induction l with
  | nil => simp [saneListB]
  | cons x xs ih => simp [saneListB, ih]

theorem saneEntriesB_iff {K : List String} {es : Entries} :
    saneEntriesB K es = true ↔ ∀ e ∈ es, saneB K e.2 = true := by
  induction es with
  | nil => simp [saneEntriesB]
  | cons e rest ih =>
    obtain ⟨k, v⟩ := e
    simp [saneEntriesB, ih]

theorem cleanListB_iff {l : List Json} :
    cleanListB l = true ↔ ∀ x ∈ l, cleanB x = true := by
  induction l with
  | nil => simp [cleanListB]
  | cons x xs ih => simp [cleanListB, ih]

theorem cleanEntriesB_cons {k : String} {v : Json} {rest : Entries} :
    cleanEntriesB ((k, v) :: rest) = true ↔
      (k ≠ "$ref" ∧ k ≠ "$defs" ∧ (k = "allOf" → allOfArrObjsB v = true) ∧
       cleanB v = true) ∧ cleanEntriesB rest = true := by
  by_cases h1 : k = "$ref" <;> by_cases h2 : k = "$defs" <;>
    by_cases h3 : k = "allOf" <;> simp_all [cleanEntriesB]

theorem cleanEntriesB_iff {es : Entries} :
    cleanEntriesB es = true ↔ ∀ e ∈ es, e.1 ≠ "$ref" ∧ e.1 ≠ "$defs" ∧
      (e.1 = "allOf" → allOfArrObjsB e.2 = true) ∧ cleanB e.2 = true := by
  induction es with
  | nil => simp [cleanEntriesB]
  | cons e rest ih =>
    obtain ⟨k, v⟩ := e
    rw [cleanEntriesB_cons, ih]
    constructor
    · rintro ⟨h0, h5⟩ e he
      rcases List.mem_cons.mp he with he1 | he1
      · cases he1; exact h0
      · exact h5 e he1
    · intro h
      exact ⟨h (k, v) (List.mem_cons_self _ _), fun e he => h e (List.mem_cons_of_mem _ he)⟩

theorem noKeyListB_iff {key : String} {l : List Json} :
    noKeyListB key l = true ↔ ∀ x ∈ l, noKeyB key x = true := by
  induction l with
  | nil => simp [noKeyListB]
  | cons x xs ih => simp [noKeyListB, ih]

theorem noKeyEntriesB_iff {key : String} {es : Entries} :
    noKeyEntriesB key es = true ↔
      ∀ e ∈ es, e.1 ≠ key ∧ noKeyB key e.2 = true := by
  induction es with
  | nil => simp [noKeyEntriesB]
  | cons e rest ih =>
    obtain ⟨k, v⟩ := e
    simp [noKeyEntriesB, ih]

theorem sibsCleanB_iff {skip : String} {es : Entries} :
    sibsCleanB skip es = true ↔ ∀ e ∈ es, e.1 = skip ∨ cleanB e.2 = true := by
  simp [sibsCleanB, List.all_eq_true]

/-! ## Branch reduction helpers -/

theorem saneShapeB_allOf_single {K : List String} {es : Entries} {item : Json}
    (ha : alookup es "allOf" = some (.arr [item])) :
    saneShapeB K es =
      (isObjB item && (alookup es "$ref").isNone && sibsCleanB "allOf" es) := by
  unfold saneShapeB
  rw [ha]

theorem saneShapeB_allOf_nil {K : List String} {es : Entries}
    (ha : alookup es "allOf" = some (.arr [])) :
    saneShapeB K es = (List.all [] isObjB && (alookup es "$ref").isNone) := by
  unfold saneShapeB
  rw [ha]

theorem saneShapeB_allOf_cons2 {K : List String} {es : Entries} {a b : Json}
    {tl : List Json} (ha : alookup es "allOf" = some (.arr (a :: b :: tl))) :
    saneShapeB K es =
      ((a :: b :: tl).all isObjB && (alookup es "$ref").isNone) := by
  unfold saneShapeB
  rw [ha]

theorem saneShapeB_ref {K : List String} {es : Entries} {s : String}
    (hn : alookup es "allOf" = none) (hr : alookup es "$ref" = some (.str s)) :
    saneShapeB K es = (K.contains (stripRef s) && sibsCleanB "$ref" es) := by
  unfold saneShapeB
  rw [hn, hr]

theorem saneShapeB_plain {K : List String} {es : Entries}
    (hn : alookup es "allOf" = none) (hr : alookup es "$ref" = none) :
    saneShapeB K es = true := by
  unfold saneShapeB
  rw [hn, hr]

theorem allOfStep_single {es : Entries} {item : Json}
    (ha : alookup es "allOf" = some (.arr [item])) :
    allOfStep es = .single item := by
  unfold allOfStep
  rw [ha]

theorem allOfStep_none {es : Entries} (ha : alookup es "allOf" = none) :
    allOfStep es = .skip := by
  unfold allOfStep
  rw [ha]

theorem allOfStep_arr_nil {es : Entries} (ha : alookup es "allOf" = some (.arr [])) :
    allOfStep es = .skip := by
  unfold allOfStep
  rw [ha]

theorem allOfStep_arr_cons2 {es : Entries} {a b : Json} {tl : List Json}
    (ha : alookup es "allOf" = some (.arr (a :: b :: tl))) :
    allOfStep es = .skip := by
  unfold allOfStep
  rw [ha]

/-! ## References collected from a tree -/

theorem mem_refsInList_of_mem {m : String} {x : Json} {l : List Json}
    (hx : x ∈ l) (hm : m ∈ refsInJ x) : m ∈ refsInList l := by
  induction l with
  | nil => simp at hx
  | cons y ys ih =>
    simp only [refsInList, List.mem_append]
    rcases List.mem_cons.mp hx with h1 | h1
    · cases h1; exact Or.inl hm
    · exact Or.inr (ih h1)

theorem mem_refsInEntries_of_val {m k : String} {v : Json} {es : Entries}
    (he : (k, v) ∈ es) (hm : m ∈ refsInJ v) : m ∈ refsInEntries es := by
  induction es with
  | nil => simp at he
  | cons e rest ih =>
    obtain ⟨k0, v0⟩ := e
    simp only [refsInEntries, List.mem_append]
    rcases List.mem_cons.mp he with h1 | h1
    · cases h1; exact Or.inl (Or.inr hm)
    · exact Or.inr (ih h1)

theorem mem_refsInEntries_ref {s : String} {es : Entries}
    (he : ("$ref", .str s) ∈ es) : stripRef s ∈ refsInEntries es := by
  induction es with
  | nil => simp at he
  | cons e rest ih =>
    obtain ⟨k0, v0⟩ := e
    simp only [refsInEntries, List.mem_append]
    rcases List.mem_cons.mp he with h1 | h1
    · cases h1
      exact Or.inl (Or.inl (by simp [refNameOf]))
    · exact Or.inr (ih h1)

theorem refsInList_nil_of {l : List Json} (h : ∀ x ∈ l, refsInJ x = []) :
    refsInList l = [] := by
  induction l with
  | nil => simp [refsInList]
  | cons x xs ih =>
    simp only [refsInList, List.append_eq_nil]
    exact ⟨h x (by simp), ih (fun y hy => h y (List.mem_cons_of_mem _ hy))⟩

theorem refsInEntries_nil_of {es : Entries}
    (h : ∀ e ∈ es, e.1 ≠ "$ref" ∧ refsInJ e.2 = []) : refsInEntries es = [] := by
  induction es with
  | nil => simp [refsInEntries]
  | cons e rest ih =>
    obtain ⟨k, v⟩ := e
    have h0 := h (k, v) (by simp)
    simp only [refsInEntries, List.append_eq_nil]
    refine ⟨⟨by simp [h0.1], h0.2⟩, ih (fun e he => h e (List.mem_cons_of_mem _ he))⟩

theorem clean_refsIn_nil : ∀ t : Json, cleanB t = true → refsInJ t = [] := by
  intro t
  induction t using json_sizeInduction with
  | step t ih =>
    cases t with
    | null => simp [refsInJ]
    | bool b => simp [refsInJ]
    | num n => simp [refsInJ]
    | str s => simp [refsInJ]
    | arr items =>
      intro hc
      have hlist : ∀ x ∈ items, cleanB x = true := by
        have : cleanListB items = true := by simpa [cleanB] using hc
        exact cleanListB_iff.mp this
      simp only [refsInJ]
      exact refsInList_nil_of
        (fun x hx => ih x (sizeOf_lt_arr hx) (hlist x hx))
    | obj entries =>
      intro hc
      have hent : ∀ e ∈ entries, e.1 ≠ "$ref" ∧ e.1 ≠ "$defs" ∧
          (e.1 = "allOf" → allOfArrObjsB e.2 = true) ∧ cleanB e.2 = true := by
        have h1 := hc
        simp only [cleanB, Bool.and_eq_true] at h1
        exact cleanEntriesB_iff.mp h1.2
      simp only [refsInJ]
      refine refsInEntries_nil_of (fun e he => ⟨(hent e he).1, ?_⟩)
      obtain ⟨k, v⟩ := e
      exact ih v (sizeOf_lt_obj he) (hent (k, v) he).2.2.2

theorem clean_sane {K : List String} : ∀ t, cleanB t = true → saneB K t = true := by
  intro t
  induction t using json_sizeInduction with
  | step t ih =>
    cases t with
    | null => intro h; simp [saneB]
    | bool b => intro h; simp [saneB]
    | num n => intro h; simp [saneB]
    | str s => intro h; simp [saneB]
    | arr items =>
      intro hc
      have hlist := cleanListB_iff.mp (by simpa [cleanB] using hc)
      have h2 : saneListB K items = true :=
        saneListB_iff.mpr (fun x hx => ih x (sizeOf_lt_arr hx) (hlist x hx))
      simpa [saneB] using h2
    | obj entries =>
      intro hc
      have h1 := hc
      simp only [cleanB, Bool.and_eq_true] at h1
      obtain ⟨hnodup, hce⟩ := h1
      have hent := cleanEntriesB_iff.mp hce
      have hdefs : alookup entries "$defs" = none :=
        alookup_eq_none.mpr (fun e he => (hent e he).2.1)
      have hrefn : alookup entries "$ref" = none :=
        alookup_eq_none.mpr (fun e he => (hent e he).1)
      have hsibs : ∀ skip, sibsCleanB skip entries = true :=
        fun skip => sibsCleanB_iff.mpr (fun e he => Or.inr (hent e he).2.2.2)
      have hshape : saneShapeB K entries = true := by
        cases ha : alookup entries "allOf" with
        | none => rw [saneShapeB_plain ha hrefn]
        | some v =>
          have hv := hent _ (alookup_mem ha)
          have hobjs : allOfArrObjsB v = true := hv.2.2.1 rfl
          cases v with
          | arr l =>
            cases l with
            | nil => rw [saneShapeB_allOf_nil ha]; simp [hrefn]
            | cons a tl =>
              cases tl with
              | nil =>
                rw [saneShapeB_allOf_single ha]
                have hobj : isObjB a = true := by
                  simpa [allOfArrObjsB] using hobjs
                simp [hobj, hrefn, hsibs]
              | cons b tl2 =>
                rw [saneShapeB_allOf_cons2 ha]
                simp only [Bool.and_eq_true]
                exact ⟨by simpa [allOfArrObjsB] using hobjs, by simp [hrefn]⟩
          | null => simp [allOfArrObjsB] at hobjs
          | bool b2 => simp [allOfArrObjsB] at hobjs
          | num n2 => simp [allOfArrObjsB] at hobjs
          | str s2 => simp [allOfArrObjsB] at hobjs
          | obj o2 => simp [allOfArrObjsB] at hobjs
      have hse : saneEntriesB K entries = true :=
        saneEntriesB_iff.mpr (fun e he => by
          obtain ⟨k, v⟩ := e
          exact ih v (sizeOf_lt_obj he) (hent (k, v) he).2.2.2)
      simp [saneB, hnodup, hdefs, hshape, hse]

/-! ## Resolver unfolding and monotonicity -/

theorem rr_zero {s : Json} {d : Entries} : resolveRefs 0 s d = none := rfl

theorem rr_null {f : Nat} {d : Entries} :
    resolveRefs (f + 1) .null d = some (.null, d) := rfl

theorem rr_bool {f : Nat} {b : Bool} {d : Entries} :
    resolveRefs (f + 1) (.bool b) d = some (.bool b, d) := rfl

theorem rr_num {f : Nat} {n : Int} {d : Entries} :
    resolveRefs (f + 1) (.num n) d = some (.num n, d) := rfl

theorem rr_str {f : Nat} {s : String} {d : Entries} :
    resolveRefs (f + 1) (.str s) d = some (.str s, d) := rfl

theorem rr_arr {f : Nat} {l : List Json} {d : Entries} :
    resolveRefs (f + 1) (.arr l) d =
      (match resolveList f l d with
       | some (l1, d1) => some (.arr l1, d1)
       | none => none) := rfl

theorem rr_single {f : Nat} {es d : Entries} {item : Json}
    (hstep : allOfStep es = .single item) :
    resolveRefs (f + 1) (.obj es) d =
      (match resolveRefs f item d with
       | some (.obj itemEntries, defs1) =>
           some (.obj (dictUpdate (dictErase es "allOf") itemEntries), defs1)
       | some _ => none
       | none => none) := by
  rw [resolveRefs, hstep]

theorem rr_failure {f : Nat} {es d : Entries}
    (hstep : allOfStep es = .failure) :
    resolveRefs (f + 1) (.obj es) d = none := by
  rw [resolveRefs, hstep]

theorem rr_ref {f : Nat} {es d : Entries} {s : String}
    (hstep : allOfStep es = .skip) (href : alookup es "$ref" = some (.str s)) :
    resolveRefs (f + 1) (.obj es) d =
      (match alookup d (stripRef s) with
       | some referenced =>
         match resolveRefs f referenced d with
         | some (.obj refEntries, defs1) =>
             some (.obj (dictUpdate (dictErase es "$ref") refEntries),
                   dictInsert defs1 (stripRef s) (.obj refEntries))
         | some _ => none
         | none => none
       | none => none) := by
  rw [resolveRefs, hstep, href]

theorem rr_ref_found {f : Nat} {es d : Entries} {s : String} {referenced : Json}
    (hstep : allOfStep es = .skip) (href : alookup es "$ref" = some (.str s))
    (hd : alookup d (stripRef s) = some referenced) :
    resolveRefs (f + 1) (.obj es) d =
      (match resolveRefs f referenced d with
       | some (.obj refEntries, defs1) =>
           some (.obj (dictUpdate (dictErase es "$ref") refEntries),
                 dictInsert defs1 (stripRef s) (.obj refEntries))
       | some _ => none
       | none => none) := by
  rw [rr_ref hstep href, hd]

theorem rr_ref_missing {f : Nat} {es d : Entries} {s : String}
    (hstep : allOfStep es = .skip) (href : alookup es "$ref" = some (.str s))
    (hd : alookup d (stripRef s) = none) :
    resolveRefs (f + 1) (.obj es) d = none := by
  rw [rr_ref hstep href, hd]

theorem rr_plain {f : Nat} {es d : Entries}
    (hstep : allOfStep es = .skip) (href : alookup es "$ref" = none) :
    resolveRefs (f + 1) (.obj es) d =
      (match resolveEntries f es d with
       | some (entries1, defs1) => some (.obj entries1, defs1)
       | none => none) := by
  rw [resolveRefs, hstep, href]

theorem re_zero {es d : Entries} : resolveEntries 0 es d = none := rfl

theorem re_nil {f : Nat} {d : Entries} :
    resolveEntries (f + 1) [] d = some ([], d) := rfl

theorem re_cons {f : Nat} {k : String} {v : Json} {rest d : Entries} :
    resolveEntries (f + 1) ((k, v) :: rest) d =
      (match resolveRefs f v d with
       | some (v1, defs1) =>
         match resolveEntries f rest defs1 with
         | some (rest1, defs2) => some ((k, v1) :: rest1, defs2)
         | none => none
       | none => none) := rfl

theorem rl_zero {l : List Json} {d : Entries} : resolveList 0 l d = none := rfl

theorem rl_nil {f : Nat} {d : Entries} :
    resolveList (f + 1) [] d = some ([], d) := rfl

theorem rl_cons {f : Nat} {x : Json} {xs : List Json} {d : Entries} :
    resolveList (f + 1) (x :: xs) d =
      (match resolveRefs f x d with
       | some (x1, defs1) =>
         match resolveList f xs defs1 with
         | some (xs1, defs2) => some (x1 :: xs1, defs2)
         | none => none
       | none => none) := rfl

theorem rr_arr_found {f : Nat} {l l1 : List Json} {d d1 : Entries}
    (hx : resolveList f l d = some (l1, d1)) :
    resolveRefs (f + 1) (.arr l) d = some (.arr l1, d1) := by
  rw [rr_arr, hx]

theorem rr_single_found {f : Nat} {es d d1 : Entries} {item : Json}
    {ie : Entries} (hstep : allOfStep es = .single item)
    (hx : resolveRefs f item d = some (.obj ie, d1)) :
    resolveRefs (f + 1) (.obj es) d =
      some (.obj (dictUpdate (dictErase es "allOf") ie), d1) := by
  rw [rr_single hstep, hx]

theorem rr_ref_resolved {f : Nat} {es d d1 : Entries} {s : String}
    {referenced : Json} {re : Entries}
    (hstep : allOfStep es = .skip) (href : alookup es "$ref" = some (.str s))
    (hd : alookup d (stripRef s) = some referenced)
    (hx : resolveRefs f referenced d = some (.obj re, d1)) :
    resolveRefs (f + 1) (.obj es) d =
      some (.obj (dictUpdate (dictErase es "$ref") re),
            dictInsert d1 (stripRef s) (.obj re)) := by
  rw [rr_ref_found hstep href hd, hx]

theorem rr_plain_found {f : Nat} {es d es1 d1 : Entries}
    (hstep : allOfStep es = .skip) (href : alookup es "$ref" = none)
    (hx : resolveEntries f es d = some (es1, d1)) :
    resolveRefs (f + 1) (.obj es) d = some (.obj es1, d1) := by
  rw [rr_plain hstep href, hx]

theorem re_cons_found {f : Nat} {k : String} {v v1 : Json} {rest d d1 : Entries}
    (hx : resolveRefs f v d = some (v1, d1)) :
    resolveEntries (f + 1) ((k, v) :: rest) d =
      (match resolveEntries f rest d1 with
       | some (rest1, defs2) => some ((k, v1) :: rest1, defs2)
       | none => none) := by
  rw [re_cons, hx]

theorem re_cons_headfail {f : Nat} {k : String} {v : Json} {rest d : Entries}
    (hx : resolveRefs f v d = none) :
    resolveEntries (f + 1) ((k, v) :: rest) d = none := by
  rw [re_cons, hx]

theorem rl_cons_found {f : Nat} {x x1 : Json} {xs : List Json} {d d1 : Entries}
    (hx : resolveRefs f x d = some (x1, d1)) :
    resolveList (f + 1) (x :: xs) d =
      (match resolveList f xs d1 with
       | some (xs1, defs2) => some (x1 :: xs1, defs2)
       | none => none) := by
  rw [rl_cons, hx]

theorem rl_cons_headfail {f : Nat} {x : Json} {xs : List Json} {d : Entries}
    (hx : resolveRefs f x d = none) :
    resolveList (f + 1) (x :: xs) d = none := by
  rw [rl_cons, hx]

theorem allOfStep_single_inv {es : Entries} {item : Json}
    (h : allOfStep es = .single item) :
    alookup es "allOf" = some (.arr [item]) := by
  unfold allOfStep at h
  split at h <;> (try split at h) <;> cases h <;> assumption

theorem allOfStep_arr_nonsingle {es : Entries} {l : List Json}
    (ha : alookup es "allOf" = some (.arr l)) (hl : l.length ≠ 1) :
    allOfStep es = .skip := by
  cases l with
  | nil => exact allOfStep_arr_nil ha
  | cons a tl =>
    cases tl with
    | nil => simp at hl
    | cons b tl2 => exact allOfStep_arr_cons2 ha

theorem resolve_mono_succ : ∀ fuel : Nat,
    (∀ s d r, resolveRefs fuel s d = some r → resolveRefs (fuel + 1) s d = some r) ∧
    (∀ es d r, resolveEntries fuel es d = some r →
       resolveEntries (fuel + 1) es d = some r) ∧
    (∀ l d r, resolveList fuel l d = some r → resolveList (fuel + 1) l d = some r) := by
  intro fuel
  induction fuel with
  | zero =>
    refine ⟨?_, ?_, ?_⟩ <;> intro a d r h <;> simp [rr_zero, re_zero, rl_zero] at h
  | succ f ih =>
    obtain ⟨ihr, ihe, ihl⟩ := ih
    refine ⟨?_, ?_, ?_⟩
    · intro s d r h
      cases s with
      | null => rw [rr_null] at h ⊢; exact h
      | bool b => rw [rr_bool] at h ⊢; exact h
      | num n => rw [rr_num] at h ⊢; exact h
      | str s0 => rw [rr_str] at h ⊢; exact h
      | arr l =>
        rw [rr_arr] at h ⊢
        cases hx : resolveList f l d with
        | none => rw [hx] at h; simp at h
        | some val =>
          rw [hx] at h
          rw [ihl _ _ _ hx]
          exact h
      | obj es =>
        cases hstep : allOfStep es with
        | failure => rw [rr_failure hstep] at h; simp at h
        | single item =>
          rw [rr_single hstep] at h ⊢
          cases hx : resolveRefs f item d with
          | none => rw [hx] at h; simp at h
          | some val =>
            rw [hx] at h
            rw [ihr _ _ _ hx]
            exact h
        | skip =>
          cases href : alookup es "$ref" with
          | none =>
            rw [rr_plain hstep href] at h ⊢
            cases hx : resolveEntries f es d with
            | none => rw [hx] at h; simp at h
            | some val =>
              rw [hx] at h
              rw [ihe _ _ _ hx]
              exact h
          | some v =>
            cases v with
            | str s0 =>
              cases hd : alookup d (stripRef s0) with
              | none => rw [rr_ref_missing hstep href hd] at h; simp at h
              | some referenced =>
                rw [rr_ref_found hstep href hd] at h ⊢
                cases hx : resolveRefs f referenced d with
                | none => rw [hx] at h; simp at h
                | some val =>
                  rw [hx] at h
                  rw [ihr _ _ _ hx]
                  exact h
            | null => rw [resolveRefs, hstep, href] at h; simp at h
            | bool b => rw [resolveRefs, hstep, href] at h; simp at h
            | num n => rw [resolveRefs, hstep, href] at h; simp at h
            | arr l => rw [resolveRefs, hstep, href] at h; simp at h
            | obj o => rw [resolveRefs, hstep, href] at h; simp at h
    · intro es d r h
      cases es with
      | nil => rw [re_nil] at h ⊢; exact h
      | cons e rest =>
        obtain ⟨k, v⟩ := e
        cases hx : resolveRefs f v d with
        | none => rw [re_cons_headfail hx] at h; simp at h
        | some val =>
          obtain ⟨v1, d1⟩ := val
          rw [re_cons_found hx] at h
          rw [re_cons_found (ihr _ _ _ hx)]
          cases hy : resolveEntries f rest d1 with
          | none => rw [hy] at h; simp at h
          | some val2 =>
            rw [hy] at h
            rw [ihe _ _ _ hy]
            exact h
    · intro l d r h
      cases l with
      | nil => rw [rl_nil] at h ⊢; exact h
      | cons x xs =>
        cases hx : resolveRefs f x d with
        | none => rw [rl_cons_headfail hx] at h; simp at h
        | some val =>
          obtain ⟨x1, d1⟩ := val
          rw [rl_cons_found hx] at h
          rw [rl_cons_found (ihr _ _ _ hx)]
          cases hy : resolveList f xs d1 with
          | none => rw [hy] at h; simp at h
          | some val2 =>
            rw [hy] at h
            rw [ihl _ _ _ hy]
            exact h

theorem rr_mono {f g : Nat} (hfg : f ≤ g) {s : Json} {d : Entries}
    {r : Json × Entries} (h : resolveRefs f s d = some r) :
    resolveRefs g s d = some r := by
  induction g, hfg using Nat.le_induction with
  | base => exact h
  | succ n hn ih => exact (resolve_mono_succ n).1 _ _ _ ih

theorem re_mono {f g : Nat} (hfg : f ≤ g) {es d : Entries}
    {r : Entries × Entries} (h : resolveEntries f es d = some r) :
    resolveEntries g es d = some r := by
  induction g, hfg using Nat.le_induction with
  | base => exact h
  | succ n hn ih => exact (resolve_mono_succ n).2.1 _ _ _ ih

theorem rl_mono {f g : Nat} (hfg : f ≤ g) {l : List Json} {d : Entries}
    {r : List Json × Entries} (h : resolveList f l d = some r) :
    resolveList g l d = some r := by
  induction g, hfg using Nat.le_induction with
  | base => exact h
  | succ n hn ih => exact (resolve_mono_succ n).2.2 _ _ _ ih

/-! ## Output shapes and transport lemmas -/

theorem rr_obj_out {f : Nat} {es d : Entries} {s' : Json} {d' : Entries}
    (h : resolveRefs f (.obj es) d = some (s', d')) : ∃ es2, s' = .obj es2 := by
  cases f with
  | zero => rw [rr_zero] at h; simp at h
  | succ f =>
    cases hstep : allOfStep es with
    | failure => rw [rr_failure hstep] at h; simp at h
    | single item =>
      rw [rr_single hstep] at h
      cases hx : resolveRefs f item d with
      | none => rw [hx] at h; simp at h
      | some val =>
        obtain ⟨v1, d1⟩ := val
        rw [hx] at h
        cases v1 with
        | obj ie => simp at h; exact ⟨_, h.1.symm⟩
        | null => simp at h
        | bool b => simp at h
        | num n => simp at h
        | str s0 => simp at h
        | arr l => simp at h
    | skip =>
      cases href : alookup es "$ref" with
      | none =>
        cases hx : resolveEntries f es d with
        | none => rw [rr_plain hstep href, hx] at h; simp at h
        | some val =>
          obtain ⟨es1, d1⟩ := val
          rw [rr_plain_found hstep href hx] at h
          simp at h
          exact ⟨es1, h.1.symm⟩
      | some v =>
        cases v with
        | str s0 =>
          cases hd : alookup d (stripRef s0) with
          | none => rw [rr_ref_missing hstep href hd] at h; simp at h
          | some referenced =>
            rw [rr_ref_found hstep href hd] at h
            cases hx : resolveRefs f referenced d with
            | none => rw [hx] at h; simp at h
            | some val =>
              obtain ⟨v1, d1⟩ := val
              rw [hx] at h
              cases v1 with
              | obj re => simp at h; exact ⟨_, h.1.symm⟩
              | null => simp at h
              | bool b => simp at h
              | num n => simp at h
              | str s1 => simp at h
              | arr l => simp at h
        | null => rw [resolveRefs, hstep, href] at h; simp at h
        | bool b => rw [resolveRefs, hstep, href] at h; simp at h
        | num n => rw [resolveRefs, hstep, href] at h; simp at h
        | arr l => rw [resolveRefs, hstep, href] at h; simp at h
        | obj o => rw [resolveRefs, hstep, href] at h; simp at h

theorem rr_arr_out {f : Nat} {l : List Json} {d : Entries} {s' : Json}
    {d' : Entries} (h : resolveRefs f (.arr l) d = some (s', d')) :
    ∃ l1, s' = .arr l1 ∧ resolveList f l d = some (l1, d') := by
  cases f with
  | zero => rw [rr_zero] at h; simp at h
  | succ f =>
    rw [rr_arr] at h
    cases hx : resolveList f l d with
    | none => rw [hx] at h; simp at h
    | some val =>
      obtain ⟨l1, d1⟩ := val
      rw [hx] at h
      simp at h
      exact ⟨l1, h.1.symm, rl_mono (Nat.le_succ f) (by rw [hx, h.2])⟩

theorem forall2_mem_right {α β : Type} {R : α → β → Prop} {l1 : List α}
    {l2 : List β} (h : List.Forall₂ R l1 l2) {b : β} (hb : b ∈ l2) :
    ∃ a ∈ l1, R a b := by
  induction h with
  | nil => simp at hb
  | cons hr hrest ih =>
    rcases List.mem_cons.mp hb with h1 | h1
    · subst h1; exact ⟨_, List.mem_cons_self _ _, hr⟩
    · obtain ⟨a, ha, har⟩ := ih h1
      exact ⟨a, List.mem_cons_of_mem _ ha, har⟩

theorem forall2_keys_eq {es es' : Entries}
    (h : List.Forall₂ EntryResolved es es') :
    es'.map Prod.fst = es.map Prod.fst := by
  induction h with
  | nil => simp
  | cons hr hrest ih => simp [ih, hr.1]

theorem nodupKeysB_keys_eq {es es' : Entries}
    (hk : es'.map Prod.fst = es.map Prod.fst) (h : nodupKeysB es = true) :
    nodupKeysB es' = true := by
  induction es' generalizing es with
  | nil => simp [nodupKeysB]
  | cons e' rest' ih =>
    obtain ⟨k', v'⟩ := e'
    cases es with
    | nil => simp at hk
    | cons e rest =>
      obtain ⟨k, v⟩ := e
      simp only [List.map_cons, List.cons.injEq] at hk
      rw [nodupKeysB_cons] at h
      rw [nodupKeysB_cons]
      refine ⟨?_, ih hk.2 h.2⟩
      intro x hx
      have hx1 : x.1 ∈ rest'.map Prod.fst := List.mem_map_of_mem _ hx
      rw [hk.2] at hx1
      obtain ⟨y, hy, hyx⟩ := List.mem_map.mp hx1
      rw [← hyx, hk.1]
      exact h.1 y hy

theorem forall2_all_objs {l l' : List Json}
    (h : List.Forall₂ ItemResolved l l') (ha : l.all isObjB = true) :
    l'.all isObjB = true := by
  induction h with
  | nil => simp
  | cons hr hrest ih =>
    simp only [List.all_cons, Bool.and_eq_true] at ha ⊢
    exact ⟨hr.2 ha.1, ih ha.2⟩

theorem forall2_clean_items {l l' : List Json}
    (h : List.Forall₂ ItemResolved l l') : ∀ x ∈ l', cleanB x = true := by
  intro x hx
  obtain ⟨a, ha, har⟩ := forall2_mem_right h hx
  exact har.1

/-! ## Definitions-dict invariants -/

theorem goodDefsP_of_B {K : List String} {d : Entries}
    (h : goodDefsB K d = true) : GoodDefsP K d := by
  simp only [goodDefsB, Bool.and_eq_true, List.all_eq_true] at h
  refine ⟨fun n hn => h.1 n hn, fun e he => ?_⟩
  have := h.2 e he
  simpa [Bool.and_eq_true] using this

theorem rankOkP_of_B {rank : String → Nat} {d : Entries}
    (h : rankOkB rank d = true) : RankOkP rank d := by
  simp only [rankOkB, List.all_eq_true, decide_eq_true_eq] at h
  exact h

theorem defsRefined_refl {d : Entries} : DefsRefined d d := fun e he => Or.inl he

theorem defsRefined_trans {d1 d2 d3 : Entries} (h1 : DefsRefined d1 d2)
    (h2 : DefsRefined d2 d3) : DefsRefined d1 d3 := by
  intro e he
  rcases h2 e he with h | h
  · exact h1 e h
  · exact Or.inr h

theorem defsMono_refl {d : Entries} : DefsMono d d := fun n h => h

theorem defsMono_trans {d1 d2 d3 : Entries} (h1 : DefsMono d1 d2)
    (h2 : DefsMono d2 d3) : DefsMono d1 d3 := fun n h => h2 n (h1 n h)

theorem goodDefs_step {K : List String} {d d' : Entries} (hg : GoodDefsP K d)
    (hr : DefsRefined d d') (hm : DefsMono d d') : GoodDefsP K d' := by
  refine ⟨fun n hn => hm n (hg.1 n hn), fun e he => ?_⟩
  rcases hr e he with h | h
  · exact hg.2 e h
  · exact ⟨h.1, clean_sane _ h.2⟩

theorem rankOk_step {rank : String → Nat} {d d' : Entries}
    (hk : RankOkP rank d) (hr : DefsRefined d d') : RankOkP rank d' := by
  intro e he m hm
  rcases hr e he with h | h
  · exact hk e h m hm
  · rw [clean_refsIn_nil e.2 h.2] at hm
    simp at hm

/-- Master case analysis for a sane object node: the components of saneB and
the four shape disciplines the resolver can encounter. -/
theorem sane_obj_cases {K : List String} {es : Entries}
    (hs : saneB K (.obj es) = true) :
    nodupKeysB es = true ∧ alookup es "$defs" = none ∧ saneEntriesB K es = true ∧
    ((∃ item, alookup es "allOf" = some (.arr [item]) ∧ isObjB item = true ∧
        alookup es "$ref" = none ∧ sibsCleanB "allOf" es = true) ∨
     (∃ l, alookup es "allOf" = some (.arr l) ∧ l.length ≠ 1 ∧
        l.all isObjB = true ∧ alookup es "$ref" = none) ∨
     (alookup es "allOf" = none ∧ ∃ s, alookup es "$ref" = some (.str s) ∧
        K.contains (stripRef s) = true ∧ sibsCleanB "$ref" es = true) ∨
     (alookup es "allOf" = none ∧ alookup es "$ref" = none)) := by
  have h := hs
  simp only [saneB, Bool.and_eq_true, and_assoc] at h
  obtain ⟨hnodup, hdefs, hshape, hse⟩ := h
  refine ⟨hnodup, Option.isNone_iff_eq_none.mp hdefs, hse, ?_⟩
  cases ha : alookup es "allOf" with
  | none =>
    cases hr : alookup es "$ref" with
    | none => exact Or.inr (Or.inr (Or.inr ⟨rfl, rfl⟩))
    | some v =>
      cases v with
      | str s =>
        rw [saneShapeB_ref ha hr] at hshape
        simp only [Bool.and_eq_true] at hshape
        exact Or.inr (Or.inr (Or.inl ⟨rfl, s, rfl, hshape.1, hshape.2⟩))
      | null => unfold saneShapeB at hshape; rw [ha, hr] at hshape; simp at hshape
      | bool b => unfold saneShapeB at hshape; rw [ha, hr] at hshape; simp at hshape
      | num n => unfold saneShapeB at hshape; rw [ha, hr] at hshape; simp at hshape
      | arr l => unfold saneShapeB at hshape; rw [ha, hr] at hshape; simp at hshape
      | obj o => unfold saneShapeB at hshape; rw [ha, hr] at hshape; simp at hshape
  | some v =>
    cases v with
    | arr l =>
      cases l with
      | nil =>
        rw [saneShapeB_allOf_nil ha] at hshape
        simp only [Bool.and_eq_true] at hshape
        refine Or.inr (Or.inl ⟨[], rfl, by simp, by simp, ?_⟩)
        exact Option.isNone_iff_eq_none.mp hshape.2
      | cons a tl =>
        cases tl with
        | nil =>
          rw [saneShapeB_allOf_single ha] at hshape
          simp only [Bool.and_eq_true] at hshape
          exact Or.inl ⟨a, rfl, hshape.1.1,
            Option.isNone_iff_eq_none.mp hshape.1.2, hshape.2⟩
        | cons b tl2 =>
          rw [saneShapeB_allOf_cons2 ha] at hshape
          simp only [Bool.and_eq_true] at hshape
          refine Or.inr (Or.inl ⟨a :: b :: tl2, rfl, by simp, hshape.1, ?_⟩)
          exact Option.isNone_iff_eq_none.mp hshape.2
    | null => unfold saneShapeB at hshape; rw [ha] at hshape; simp at hshape
    | bool b => unfold saneShapeB at hshape; rw [ha] at hshape; simp at hshape
    | num n => unfold saneShapeB at hshape; rw [ha] at hshape; simp at hshape
    | str s => unfold saneShapeB at hshape; rw [ha] at hshape; simp at hshape
    | obj o => unfold saneShapeB at hshape; rw [ha] at hshape; simp at hshape

/-- Core invariant of the resolver: on sane input with a good definitions
dict, success yields a fully resolved tree, and the definitions dict is only
refined (entries kept or replaced by resolved object bodies). -/
theorem resolve_clean (K : List String) : ∀ fuel : Nat,
    (∀ s d s' d', saneB K s = true → GoodDefsP K d →
       resolveRefs fuel s d = some (s', d') →
       cleanB s' = true ∧ DefsRefined d d' ∧ DefsMono d d') ∧
    (∀ es d es' d', saneEntriesB K es = true → GoodDefsP K d →
       resolveEntries fuel es d = some (es', d') →
       List.Forall₂ EntryResolved es es' ∧ DefsRefined d d' ∧ DefsMono d d') ∧
    (∀ l d l' d', saneListB K l = true → GoodDefsP K d →
       resolveList fuel l d = some (l', d') →
       List.Forall₂ ItemResolved l l' ∧ DefsRefined d d' ∧ DefsMono d d') := by
  intro fuel
  induction fuel with
  | zero =>
    refine ⟨?_, ?_, ?_⟩ <;> intro a d a' d' hs hg h <;>
      simp [rr_zero, re_zero, rl_zero] at h
  | succ f ih =>
    obtain ⟨ihr, ihe, ihl⟩ := ih
    refine ⟨?_, ?_, ?_⟩
    · intro s d s' d' hs hg h
      cases s with
      | null =>
        rw [rr_null] at h
        simp only [Option.some.injEq, Prod.mk.injEq] at h
        obtain ⟨h1, h2⟩ := h
        subst h1; subst h2
        exact ⟨rfl, defsRefined_refl, defsMono_refl⟩
      | bool b =>
        rw [rr_bool] at h
        simp only [Option.some.injEq, Prod.mk.injEq] at h
        obtain ⟨h1, h2⟩ := h
        subst h1; subst h2
        exact ⟨rfl, defsRefined_refl, defsMono_refl⟩
      | num n =>
        rw [rr_num] at h
        simp only [Option.some.injEq, Prod.mk.injEq] at h
        obtain ⟨h1, h2⟩ := h
        subst h1; subst h2
        exact ⟨rfl, defsRefined_refl, defsMono_refl⟩
      | str s0 =>
        rw [rr_str] at h
        simp only [Option.some.injEq, Prod.mk.injEq] at h
        obtain ⟨h1, h2⟩ := h
        subst h1; subst h2
        exact ⟨rfl, defsRefined_refl, defsMono_refl⟩
      | arr l =>
        rw [rr_arr] at h
        cases hx : resolveList f l d with
        | none => rw [hx] at h; simp at h
        | some val =>
          obtain ⟨l1, d1⟩ := val
          rw [hx] at h
          simp only [Option.some.injEq, Prod.mk.injEq] at h
          obtain ⟨h1, h2⟩ := h
          subst h1; subst h2
          have hsl : saneListB K l = true := by simpa [saneB] using hs
          obtain ⟨hfa, hrd, hm⟩ := ihl l d l1 d1 hsl hg hx
          refine ⟨?_, hrd, hm⟩
          simp only [cleanB]
          exact cleanListB_iff.mpr (forall2_clean_items hfa)
      | obj es =>
        obtain ⟨hnodup, hdefs, hse, hcases⟩ := sane_obj_cases hs
        have hseIff := saneEntriesB_iff.mp hse
        have hdefs_all := alookup_eq_none.mp hdefs
        rcases hcases with ⟨item, ha, hitem, hrefnone, hsibs⟩ |
          ⟨l, ha, hlen, hobjs, hrefnone⟩ |
          ⟨ha, s0, hr, hcont, hsibs⟩ | ⟨ha, hrefnone⟩
        · -- single-item allOf
          have hstep := allOfStep_single ha
          rw [rr_single hstep] at h
          cases hx : resolveRefs f item d with
          | none => rw [hx] at h; simp at h
          | some val =>
            obtain ⟨v1, d1⟩ := val
            rw [hx] at h
            have hsane_arr : saneB K (.arr [item]) = true :=
              hseIff _ (alookup_mem ha)
            have hsane_item : saneB K item = true := by
              simpa [saneB, saneListB] using hsane_arr
            obtain ⟨hclean1, hrd1, hm1⟩ := ihr item d v1 d1 hsane_item hg hx
            cases v1 with
            | obj ie =>
              simp only [Option.some.injEq, Prod.mk.injEq] at h
              obtain ⟨h1, h2⟩ := h
              subst h1; subst h2
              refine ⟨?_, hrd1, hm1⟩
              have hieclean : nodupKeysB ie = true ∧ cleanEntriesB ie = true := by
                simpa [cleanB, Bool.and_eq_true] using hclean1
              simp only [cleanB, Bool.and_eq_true]
              refine ⟨nodupKeysB_dictUpdate (nodupKeysB_dictErase hnodup), ?_⟩
              rw [cleanEntriesB_iff]
              intro e he
              rcases mem_dictUpdate he with hmem1 | hmem2
              · obtain ⟨hees, hne⟩ := mem_dictErase.mp hmem1
                refine ⟨alookup_eq_none.mp hrefnone e hees, hdefs_all e hees,
                  fun hk => absurd hk hne, ?_⟩
                rcases sibsCleanB_iff.mp hsibs e hees with h3 | h3
                · exact absurd h3 hne
                · exact h3
              · exact cleanEntriesB_iff.mp hieclean.2 e hmem2
            | null => simp at h
            | bool b => simp at h
            | num n => simp at h
            | str s1 => simp at h
            | arr l2 => simp at h
        · -- allOf with zero or several items: plain traversal
          have hstep := allOfStep_arr_nonsingle ha hlen
          cases hx : resolveEntries f es d with
          | none => rw [rr_plain hstep hrefnone, hx] at h; simp at h
          | some val =>
            obtain ⟨es1, d1⟩ := val
            rw [rr_plain_found hstep hrefnone hx] at h
            simp only [Option.some.injEq, Prod.mk.injEq] at h
            obtain ⟨h1, h2⟩ := h
            subst h1; subst h2
            obtain ⟨hfa, hrd, hm⟩ := ihe es d es1 d1 hse hg hx
            refine ⟨?_, hrd, hm⟩
            simp only [cleanB, Bool.and_eq_true]
            refine ⟨nodupKeysB_keys_eq (forall2_keys_eq hfa) hnodup, ?_⟩
            rw [cleanEntriesB_iff]
            intro e' he'
            obtain ⟨e, hees, her⟩ := forall2_mem_right hfa he'
            obtain ⟨hkeq, hclean, harr⟩ := her
            refine ⟨by rw [hkeq]; exact alookup_eq_none.mp hrefnone e hees,
              by rw [hkeq]; exact hdefs_all e hees, ?_, hclean⟩
            intro hk
            have hek : e.1 = "allOf" := by rw [← hkeq]; exact hk
            obtain ⟨k0, v0⟩ := e
            have hlook : alookup es "allOf" = some v0 := by
              rw [← hek]
              exact alookup_of_mem_nodup hnodup hees
            rw [ha] at hlook
            have hv0 : v0 = .arr l := by
              simpa using hlook.symm
            obtain ⟨l', hel', hobjs'⟩ := harr l (by simpa using hv0) hobjs
            rw [hel']
            simpa [allOfArrObjsB] using hobjs'
        · -- $ref node
          have hstep := allOfStep_none ha
          have hmemK : stripRef s0 ∈ K := List.mem_of_elem_eq_true hcont
          have hksome := hg.1 _ hmemK
          obtain ⟨referenced, hd0⟩ := Option.isSome_iff_exists.mp hksome
          have hrefgood := hg.2 _ (alookup_mem hd0)
          rw [rr_ref_found hstep hr hd0] at h
          cases hx : resolveRefs f referenced d with
          | none => rw [hx] at h; simp at h
          | some val =>
            obtain ⟨v1, d1⟩ := val
            rw [hx] at h
            obtain ⟨hclean1, hrd1, hm1⟩ := ihr referenced d v1 d1 hrefgood.2 hg hx
            cases v1 with
            | obj re =>
              simp only [Option.some.injEq, Prod.mk.injEq] at h
              obtain ⟨h1, h2⟩ := h
              subst h1; subst h2
              have hreclean : nodupKeysB re = true ∧ cleanEntriesB re = true := by
                simpa [cleanB, Bool.and_eq_true] using hclean1
              have ha_all := alookup_eq_none.mp ha
              refine ⟨?_, ?_, ?_⟩
              · simp only [cleanB, Bool.and_eq_true]
                refine ⟨nodupKeysB_dictUpdate (nodupKeysB_dictErase hnodup), ?_⟩
                rw [cleanEntriesB_iff]
                intro e he
                rcases mem_dictUpdate he with hmem1 | hmem2
                · obtain ⟨hees, hne⟩ := mem_dictErase.mp hmem1
                  refine ⟨hne, hdefs_all e hees,
                    fun hk => absurd hk (ha_all e hees), ?_⟩
                  rcases sibsCleanB_iff.mp hsibs e hees with h3 | h3
                  · exact absurd h3 hne
                  · exact h3
                · exact cleanEntriesB_iff.mp hreclean.2 e hmem2
              · intro e he
                rcases mem_dictInsert he with h3 | h3
                · refine Or.inr ?_
                  rw [h3]
                  exact ⟨rfl, hclean1⟩
                · exact hrd1 e h3
              · intro n hn
                exact isSome_alookup_dictInsert (hm1 n hn)
            | null => simp at h
            | bool b => simp at h
            | num n => simp at h
            | str s1 => simp at h
            | arr l2 => simp at h
        · -- no allOf, no $ref: plain traversal
          have hstep := allOfStep_none ha
          cases hx : resolveEntries f es d with
          | none => rw [rr_plain hstep hrefnone, hx] at h; simp at h
          | some val =>
            obtain ⟨es1, d1⟩ := val
            rw [rr_plain_found hstep hrefnone hx] at h
            simp only [Option.some.injEq, Prod.mk.injEq] at h
            obtain ⟨h1, h2⟩ := h
            subst h1; subst h2
            obtain ⟨hfa, hrd, hm⟩ := ihe es d es1 d1 hse hg hx
            have ha_all := alookup_eq_none.mp ha
            refine ⟨?_, hrd, hm⟩
            simp only [cleanB, Bool.and_eq_true]
            refine ⟨nodupKeysB_keys_eq (forall2_keys_eq hfa) hnodup, ?_⟩
            rw [cleanEntriesB_iff]
            intro e' he'
            obtain ⟨e, hees, her⟩ := forall2_mem_right hfa he'
            obtain ⟨hkeq, hclean, harr⟩ := her
            refine ⟨by rw [hkeq]; exact alookup_eq_none.mp hrefnone e hees,
              by rw [hkeq]; exact hdefs_all e hees, ?_, hclean⟩
            intro hk
            have hek : e.1 = "allOf" := by rw [← hkeq]; exact hk
            exact absurd hek (ha_all e hees)
    · intro es d es' d' hse hg h
      cases es with
      | nil =>
        rw [re_nil] at h
        simp only [Option.some.injEq, Prod.mk.injEq] at h
        obtain ⟨h1, h2⟩ := h
        subst h1; subst h2
        exact ⟨List.Forall₂.nil, defsRefined_refl, defsMono_refl⟩
      | cons e rest =>
        obtain ⟨k, v⟩ := e
        have hsv : saneB K v = true ∧ saneEntriesB K rest = true := by
          simpa [saneEntriesB, Bool.and_eq_true] using hse
        cases hx : resolveRefs f v d with
        | none => rw [re_cons_headfail hx] at h; simp at h
        | some val =>
          obtain ⟨v1, d1⟩ := val
          rw [re_cons_found hx] at h
          obtain ⟨hclean1, hrd1, hm1⟩ := ihr v d v1 d1 hsv.1 hg hx
          have hg1 : GoodDefsP K d1 := goodDefs_step hg hrd1 hm1
          cases hy : resolveEntries f rest d1 with
          | none => rw [hy] at h; simp at h
          | some val2 =>
            obtain ⟨rest1, d2⟩ := val2
            rw [hy] at h
            simp only [Option.some.injEq, Prod.mk.injEq] at h
            obtain ⟨h1, h2⟩ := h
            subst h1; subst h2
            obtain ⟨hfa, hrd2, hm2⟩ := ihe rest d1 rest1 d2 hsv.2 hg1 hy
            refine ⟨List.Forall₂.cons ⟨rfl, hclean1, ?_⟩ hfa,
              defsRefined_trans hrd1 hrd2, defsMono_trans hm1 hm2⟩
            intro l hlv hlobjs
            subst hlv
            obtain ⟨l1, hv1, hrl⟩ := rr_arr_out hx
            have hsl : saneListB K l = true := by simpa [saneB] using hsv.1
            obtain ⟨hfal, hrdl, hml⟩ := ihl l d l1 d1 hsl hg hrl
            exact ⟨l1, hv1, forall2_all_objs hfal hlobjs⟩
    · intro l d l' d' hsl hg h
      cases l with
      | nil =>
        rw [rl_nil] at h
        simp only [Option.some.injEq, Prod.mk.injEq] at h
        obtain ⟨h1, h2⟩ := h
        subst h1; subst h2
        exact ⟨List.Forall₂.nil, defsRefined_refl, defsMono_refl⟩
      | cons x xs =>
        have hsx : saneB K x = true ∧ saneListB K xs = true := by
          simpa [saneListB, Bool.and_eq_true] using hsl
        cases hx : resolveRefs f x d with
        | none => rw [rl_cons_headfail hx] at h; simp at h
        | some val =>
          obtain ⟨x1, d1⟩ := val
          rw [rl_cons_found hx] at h
          obtain ⟨hclean1, hrd1, hm1⟩ := ihr x d x1 d1 hsx.1 hg hx
          have hg1 : GoodDefsP K d1 := goodDefs_step hg hrd1 hm1
          cases hy : resolveList f xs d1 with
          | none => rw [hy] at h; simp at h
          | some val2 =>
            obtain ⟨xs1, d2⟩ := val2
            rw [hy] at h
            simp only [Option.some.injEq, Prod.mk.injEq] at h
            obtain ⟨h1, h2⟩ := h
            subst h1; subst h2
            obtain ⟨hfa, hrd2, hm2⟩ := ihl xs d1 xs1 d2 hsx.2 hg1 hy
            refine ⟨List.Forall₂.cons ⟨hclean1, ?_⟩ hfa,
              defsRefined_trans hrd1 hrd2, defsMono_trans hm1 hm2⟩
            intro hox
            cases x with
            | obj oe =>
              obtain ⟨es2, hx2⟩ := rr_obj_out hx
              rw [hx2]
              rfl
            | null => simp [isObjB] at hox
            | bool b => simp [isObjB] at hox
            | num n => simp [isObjB] at hox
            | str s0 => simp [isObjB] at hox
            | arr l2 => simp [isObjB] at hox

theorem json_sizeOf_pos (t : Json) : 0 < sizeOf t := by
  cases t <;> simp_arith

theorem isObjB_exists {t : Json} (h : isObjB t = true) :
    ∃ es, t = Json.obj es := by
  cases t with
  | obj es => exact ⟨es, rfl⟩
  | null => simp [isObjB] at h
  | bool b => simp [isObjB] at h
  | num n => simp [isObjB] at h
  | str s => simp [isObjB] at h
  | arr l => simp [isObjB] at h

/-- Fuel existence for the resolver: on sane input whose reference graph is
acyclic (witnessed by the rank function), some fuel makes resolution
succeed.  The outer induction is on a strict bound for the ranks of the
references occurring in the schema; following a reference strictly lowers
that bound, and the structural inner induction handles everything else. -/
theorem resolve_defined (K : List String) (rank : String → Nat) :
    ∀ ρ : Nat, ∀ n : Nat, ∀ s : Json, sizeOf s ≤ n →
      ∀ d : Entries, saneB K s = true → GoodDefsP K d → RankOkP rank d →
      (∀ m ∈ refsInJ s, rank m < ρ) →
      ∃ f s' d', resolveRefs f s d = some (s', d') := by
  intro ρ
  induction ρ using Nat.strong_induction_on with
  | _ ρ ihρ =>
    intro n
    induction n with
    | zero =>
      intro s hsize
      have := json_sizeOf_pos s
      omega
    | succ n ihn =>
      intro s hsize d hs hg hk hbound
      cases s with
      | null => exact ⟨1, .null, d, rr_null⟩
      | bool b => exact ⟨1, .bool b, d, rr_bool⟩
      | num n0 => exact ⟨1, .num n0, d, rr_num⟩
      | str s0 => exact ⟨1, .str s0, d, rr_str⟩
      | arr items =>
        have hsl := saneListB_iff.mp (by simpa [saneB] using hs)
        have haux : ∀ l : List Json, (∀ x ∈ l, saneB K x = true) →
            (∀ x ∈ l, sizeOf x ≤ n) →
            (∀ x ∈ l, ∀ m ∈ refsInJ x, rank m < ρ) →
            ∀ d0, GoodDefsP K d0 → RankOkP rank d0 →
            ∃ f l1 d1, resolveList f l d0 = some (l1, d1) := by
          intro l
          induction l with
          | nil => exact fun _ _ _ d0 _ _ => ⟨1, [], d0, rl_nil⟩
          | cons y ys ihys =>
            intro hall_sane hall_size hall_bound d0 hg0 hk0
            obtain ⟨f1, y1, d1, hy1⟩ :=
              ihn y (hall_size y (by simp)) d0 (hall_sane y (by simp)) hg0 hk0
                (hall_bound y (by simp))
            obtain ⟨hcl, hrd, hm⟩ :=
              (resolve_clean K f1).1 y d0 y1 d1 (hall_sane y (by simp)) hg0 hy1
            obtain ⟨f2, ys1, d2, hys1⟩ :=
              ihys (fun x hx => hall_sane x (List.mem_cons_of_mem _ hx))
                (fun x hx => hall_size x (List.mem_cons_of_mem _ hx))
                (fun x hx => hall_bound x (List.mem_cons_of_mem _ hx))
                d1 (goodDefs_step hg0 hrd hm) (rankOk_step hk0 hrd)
            refine ⟨max f1 f2 + 1, y1 :: ys1, d2, ?_⟩
            rw [rl_cons_found (rr_mono (le_max_left f1 f2) hy1),
              rl_mono (le_max_right f1 f2) hys1]
        obtain ⟨f, l1, d1, hl⟩ := haux items hsl
          (fun x hx => by have := @sizeOf_lt_arr x items hx; omega)
          (fun x hx m hm => hbound m (by
            simp only [refsInJ]
            exact mem_refsInList_of_mem hx hm))
          d hg hk
        exact ⟨f + 1, .arr l1, d1, rr_arr_found hl⟩
      | obj entries =>
        obtain ⟨hnodup, hdefs, hse, hcases⟩ := sane_obj_cases hs
        have hseIff := saneEntriesB_iff.mp hse
        have hauxe : ∀ l : Entries, (∀ e ∈ l, saneB K e.2 = true) →
            (∀ e ∈ l, sizeOf e.2 ≤ n) →
            (∀ e ∈ l, ∀ m ∈ refsInJ e.2, rank m < ρ) →
            ∀ d0, GoodDefsP K d0 → RankOkP rank d0 →
            ∃ f l1 d1, resolveEntries f l d0 = some (l1, d1) := by
          intro l
          induction l with
          | nil => exact fun _ _ _ d0 _ _ => ⟨1, [], d0, re_nil⟩
          | cons e rest ihrest =>
            intro hall_sane hall_size hall_bound d0 hg0 hk0
            obtain ⟨k, v⟩ := e
            obtain ⟨f1, v1, d1, hv1⟩ :=
              ihn v (hall_size (k, v) (by simp)) d0 (hall_sane (k, v) (by simp))
                hg0 hk0 (hall_bound (k, v) (by simp))
            obtain ⟨hcl, hrd, hm⟩ :=
              (resolve_clean K f1).1 v d0 v1 d1 (hall_sane (k, v) (by simp)) hg0 hv1
            obtain ⟨f2, rest1, d2, hrest1⟩ :=
              ihrest (fun e he => hall_sane e (List.mem_cons_of_mem _ he))
                (fun e he => hall_size e (List.mem_cons_of_mem _ he))
                (fun e he => hall_bound e (List.mem_cons_of_mem _ he))
                d1 (goodDefs_step hg0 hrd hm) (rankOk_step hk0 hrd)
            refine ⟨max f1 f2 + 1, (k, v1) :: rest1, d2, ?_⟩
            rw [re_cons_found (rr_mono (le_max_left f1 f2) hv1),
              re_mono (le_max_right f1 f2) hrest1]
        have hsize_e : ∀ e ∈ entries, sizeOf e.2 ≤ n := by
          intro e he
          obtain ⟨k, v⟩ := e
          have h1 := @sizeOf_lt_obj k v entries he
          show sizeOf v ≤ n
          omega
        have hbound_e : ∀ e ∈ entries, ∀ m ∈ refsInJ e.2, rank m < ρ := by
          intro e he m hm
          obtain ⟨k, v⟩ := e
          exact hbound m (by
            simp only [refsInJ]
            exact mem_refsInEntries_of_val he hm)
        have hsane_e : ∀ e ∈ entries, saneB K e.2 = true := fun e he => hseIff e he
        rcases hcases with ⟨item, ha, hitem, hrefnone, hsibs⟩ |
          ⟨l, ha, hlen, hobjs, hrefnone⟩ |
          ⟨ha, s0, hr, hcont, hsibs⟩ | ⟨ha, hrefnone⟩
        · -- single-item allOf: recurse into the item
          have hstep := allOfStep_single ha
          have hsane_arr : saneB K (.arr [item]) = true :=
            hseIff _ (alookup_mem ha)
          have hsane_item : saneB K item = true := by
            simpa [saneB, saneListB] using hsane_arr
          have hsize_item : sizeOf item ≤ n := by
            have h1 := sizeOf_lt_obj (alookup_mem ha)
            have h2 : sizeOf item < sizeOf (Json.arr [item]) :=
              sizeOf_lt_arr (by simp)
            omega
          have hbound_item : ∀ m ∈ refsInJ item, rank m < ρ := by
            intro m hm
            refine hbound m (by
              simp only [refsInJ]
              refine mem_refsInEntries_of_val (alookup_mem ha) ?_
              simp only [refsInJ]
              exact mem_refsInList_of_mem (by simp) hm)
          obtain ⟨f1, v1, d1, hx⟩ :=
            ihn item hsize_item d hsane_item hg hk hbound_item
          obtain ⟨oe, hoe⟩ := isObjB_exists hitem
          subst hoe
          obtain ⟨ie, hie⟩ := rr_obj_out hx
          subst hie
          exact ⟨f1 + 1, _, d1, rr_single_found hstep hx⟩
        · -- allOf with zero or several items: traverse all values
          have hstep := allOfStep_arr_nonsingle ha hlen
          obtain ⟨f, es1, d1, hes⟩ := hauxe entries hsane_e hsize_e hbound_e d hg hk
          exact ⟨f + 1, .obj es1, d1, rr_plain_found hstep hrefnone hes⟩
        · -- $ref node: follow the reference, whose rank is below the bound
          have hstep := allOfStep_none ha
          have hmemK : stripRef s0 ∈ K := List.mem_of_elem_eq_true hcont
          obtain ⟨referenced, hd0⟩ :=
            Option.isSome_iff_exists.mp (hg.1 _ hmemK)
          have hrefgood := hg.2 _ (alookup_mem hd0)
          have hrank_lt : rank (stripRef s0) < ρ := by
            refine hbound (stripRef s0) (by
              simp only [refsInJ]
              exact mem_refsInEntries_ref (alookup_mem hr))
          obtain ⟨f1, v1, d1, hx⟩ :=
            ihρ (rank (stripRef s0)) hrank_lt (sizeOf referenced) referenced
              (Nat.le_refl _) d hrefgood.2 hg hk
              (fun m hm => hk _ (alookup_mem hd0) m hm)
          obtain ⟨oe, hoe⟩ := isObjB_exists hrefgood.1
          subst hoe
          obtain ⟨re, hre⟩ := rr_obj_out hx
          subst hre
          exact ⟨f1 + 1, _, _, rr_ref_resolved hstep hr hd0 hx⟩
        · -- no allOf, no $ref: traverse all values
          have hstep := allOfStep_none ha
          obtain ⟨f, es1, d1, hes⟩ := hauxe entries hsane_e hsize_e hbound_e d hg hk
          exact ⟨f + 1, .obj es1, d1, rr_plain_found hstep hrefnone hes⟩

/-! ## remove_fields lemmas -/

theorem strippedOkListB_iff {fields : List String} {l : List Json} :
    strippedOkListB fields l = true ↔ ∀ x ∈ l, strippedOkB fields x = true := by
  induction l with
  | nil => simp [strippedOkListB]
  | cons x xs ih => simp [strippedOkListB, ih]

theorem strippedOkEntriesB_iff {fields : List String} {es : Entries} :
    strippedOkEntriesB fields es = true ↔
      ∀ e ∈ es, strippedOkB fields e.2 = true := by
  induction es with
  | nil => simp [strippedOkEntriesB]
  | cons e rest ih =>
    obtain ⟨k, v⟩ := e
    simp [strippedOkEntriesB, ih]

theorem mem_removeFieldsEntries {fields : List String} {strip : Bool}
    {es : Entries} {e : String × Json}
    (h : e ∈ removeFieldsEntries fields strip es) :
    ∃ k v, (k, v) ∈ es ∧ e = (k, removeFields fields v) := by
  induction es with
  | nil => simp [removeFieldsEntries] at h
  | cons e0 rest ih =>
    obtain ⟨k0, v0⟩ := e0
    by_cases hc : strip && fields.contains k0
    · rw [show removeFieldsEntries fields strip ((k0, v0) :: rest) =
          removeFieldsEntries fields strip rest from by
            simp only [removeFieldsEntries]
            rw [if_pos hc]] at h
      obtain ⟨k, v, hmem, he⟩ := ih h
      exact ⟨k, v, List.mem_cons_of_mem _ hmem, he⟩
    · rw [show removeFieldsEntries fields strip ((k0, v0) :: rest) =
          (k0, removeFields fields v0) :: removeFieldsEntries fields strip rest from by
            simp only [removeFieldsEntries, if_neg hc]] at h
      rcases List.mem_cons.mp h with h1 | h1
      · exact ⟨k0, v0, List.mem_cons_self _ _, h1⟩
      · obtain ⟨k, v, hmem, he⟩ := ih h1
        exact ⟨k, v, List.mem_cons_of_mem _ hmem, he⟩

theorem mem_removeFieldsList {fields : List String} {l : List Json} {x : Json}
    (h : x ∈ removeFieldsList fields l) : ∃ y ∈ l, x = removeFields fields y := by
  induction l with
  | nil => simp [removeFieldsList] at h
  | cons y ys ih =>
    simp only [removeFieldsList, List.mem_cons] at h
    rcases h with h1 | h1
    · exact ⟨y, List.mem_cons_self _ _, h1⟩
    · obtain ⟨z, hz, he⟩ := ih h1
      exact ⟨z, List.mem_cons_of_mem _ hz, he⟩

theorem alookup_removeFieldsEntries_stripped {fields : List String}
    {es : Entries} {f : String} (hf : f ∈ fields) :
    alookup (removeFieldsEntries fields true es) f = none := by
  induction es with
  | nil => simp [removeFieldsEntries, alookup]
  | cons e rest ih =>
    obtain ⟨k, v⟩ := e
    by_cases hc : fields.contains k
    · rw [show removeFieldsEntries fields true ((k, v) :: rest) =
          removeFieldsEntries fields true rest from by
            simp only [removeFieldsEntries]
            rw [if_pos (by simpa using hc)]]
      exact ih
    · have hkne : ¬ k = f := by
        intro he
        subst he
        exact hc (List.elem_eq_true_of_mem hf)
      rw [show removeFieldsEntries fields true ((k, v) :: rest) =
          (k, removeFields fields v) :: removeFieldsEntries fields true rest from by
            simp only [removeFieldsEntries]
            rw [if_neg (by simpa using hc)]]
      rw [alookup_cons_ne hkne]
      exact ih

theorem alookup_removeFieldsEntries_false {fields : List String}
    {es : Entries} {key : String} :
    alookup (removeFieldsEntries fields false es) key =
      (alookup es key).map (removeFields fields) := by
  induction es with
  | nil => simp [removeFieldsEntries, alookup]
  | cons e rest ih =>
    obtain ⟨k, v⟩ := e
    rw [show removeFieldsEntries fields false ((k, v) :: rest) =
        (k, removeFields fields v) :: removeFieldsEntries fields false rest from by
          simp [removeFieldsEntries]]
    by_cases hk : k = key
    · subst hk
      rw [alookup_cons_self, alookup_cons_self]
      rfl
    · rw [alookup_cons_ne hk, alookup_cons_ne hk, ih]

theorem removeFields_strippedOk (fields : List String) :
    ∀ t, strippedOkB fields (removeFields fields t) = true := by
  intro t
  induction t using json_sizeInduction with
  | step t ih =>
    cases t with
    | null => rfl
    | bool b => rfl
    | num n => rfl
    | str s => rfl
    | arr l =>
      simp only [removeFields, strippedOkB]
      rw [strippedOkListB_iff]
      intro x hx
      obtain ⟨y, hy, he⟩ := mem_removeFieldsList hx
      rw [he]
      exact ih y (sizeOf_lt_arr hy)
    | obj es =>
      simp only [removeFields, strippedOkB, Bool.and_eq_true]
      constructor
      · by_cases hstrip : (alookup es "type").isSome
        · rw [hstrip]
          simp only [Bool.or_eq_true]
          refine Or.inr ?_
          rw [List.all_eq_true]
          intro f hf
          rw [alookup_removeFieldsEntries_stripped hf]
          rfl
        · have h0 : (alookup es "type").isSome = false := by
            simpa using hstrip
          rw [h0]
          simp only [Bool.or_eq_true]
          refine Or.inl ?_
          rw [alookup_removeFieldsEntries_false]
          cases hx : alookup es "type" with
          | none => rfl
          | some v => rw [hx] at h0; simp at h0
      · rw [strippedOkEntriesB_iff]
        intro e he
        obtain ⟨k, v, hmem, heq⟩ := mem_removeFieldsEntries he
        rw [heq]
        exact ih v (sizeOf_lt_obj hmem)

theorem removeFields_noKey (key : String) (fields : List String) :
    ∀ t, noKeyB key t = true → noKeyB key (removeFields fields t) = true := by
  intro t
  induction t using json_sizeInduction with
  | step t ih =>
    cases t with
    | null => intro h; exact h
    | bool b => intro h; exact h
    | num n => intro h; exact h
    | str s => intro h; exact h
    | arr l =>
      intro h
      have hl := noKeyListB_iff.mp (by simpa [noKeyB] using h)
      simp only [removeFields, noKeyB]
      rw [noKeyListB_iff]
      intro x hx
      obtain ⟨y, hy, he⟩ := mem_removeFieldsList hx
      rw [he]
      exact ih y (sizeOf_lt_arr hy) (hl y hy)
    | obj es =>
      intro h
      have hl := noKeyEntriesB_iff.mp (by simpa [noKeyB] using h)
      simp only [removeFields, noKeyB]
      rw [noKeyEntriesB_iff]
      intro e he
      obtain ⟨k, v, hmem, heq⟩ := mem_removeFieldsEntries he
      rw [heq]
      exact ⟨(hl (k, v) hmem).1, ih v (sizeOf_lt_obj hmem) (hl (k, v) hmem).2⟩

/-! ## From cleanliness and sanity to key absence -/

theorem clean_noKey : ∀ t : Json, cleanB t = true →
    noKeyB "$ref" t = true ∧ noKeyB "$defs" t = true := by
  intro t
  induction t using json_sizeInduction with
  | step t ih =>
    cases t with
    | null => intro h; exact ⟨rfl, rfl⟩
    | bool b => intro h; exact ⟨rfl, rfl⟩
    | num n => intro h; exact ⟨rfl, rfl⟩
    | str s => intro h; exact ⟨rfl, rfl⟩
    | arr l =>
      intro h
      have hl := cleanListB_iff.mp (by simpa [cleanB] using h)
      constructor <;>
        · simp only [noKeyB]
          rw [noKeyListB_iff]
          intro x hx
          first
            | exact (ih x (sizeOf_lt_arr hx) (hl x hx)).1
            | exact (ih x (sizeOf_lt_arr hx) (hl x hx)).2
    | obj es =>
      intro h
      have h1 := h
      simp only [cleanB, Bool.and_eq_true] at h1
      have hes := cleanEntriesB_iff.mp h1.2
      constructor <;>
        · simp only [noKeyB]
          rw [noKeyEntriesB_iff]
          intro e he
          obtain ⟨k, v⟩ := e
          have h2 := hes (k, v) he
          first
            | exact ⟨h2.1, (ih v (sizeOf_lt_obj he) h2.2.2.2).1⟩
            | exact ⟨h2.2.1, (ih v (sizeOf_lt_obj he) h2.2.2.2).2⟩

theorem sane_noKeys : ∀ t : Json, saneB ([] : List String) t = true →
    noKeyB "$ref" t = true ∧ noKeyB "$defs" t = true := by
  intro t
  induction t using json_sizeInduction with
  | step t ih =>
    cases t with
    | null => intro h; exact ⟨rfl, rfl⟩
    | bool b => intro h; exact ⟨rfl, rfl⟩
    | num n => intro h; exact ⟨rfl, rfl⟩
    | str s => intro h; exact ⟨rfl, rfl⟩
    | arr l =>
      intro h
      have hl := saneListB_iff.mp (by simpa [saneB] using h)
      constructor <;>
        · simp only [noKeyB]
          rw [noKeyListB_iff]
          intro x hx
          first
            | exact (ih x (sizeOf_lt_arr hx) (hl x hx)).1
            | exact (ih x (sizeOf_lt_arr hx) (hl x hx)).2
    | obj es =>
      intro h
      obtain ⟨hnodup, hdefs, hse, hcases⟩ := sane_obj_cases h
      have hrefnone : alookup es "$ref" = none := by
        rcases hcases with ⟨item, ha, hitem, hrefnone, hsibs⟩ |
          ⟨l, ha, hlen, hobjs, hrefnone⟩ |
          ⟨ha, s0, hr, hcont, hsibs⟩ | ⟨ha, hrefnone⟩
        · exact hrefnone
        · exact hrefnone
        · simp at hcont
        · exact hrefnone
      have hseIff := saneEntriesB_iff.mp hse
      constructor <;>
        · simp only [noKeyB]
          rw [noKeyEntriesB_iff]
          intro e he
          obtain ⟨k, v⟩ := e
          first
            | exact ⟨alookup_eq_none.mp hrefnone (k, v) he,
                (ih v (sizeOf_lt_obj he) (hseIff (k, v) he)).1⟩
            | exact ⟨alookup_eq_none.mp hdefs (k, v) he,
                (ih v (sizeOf_lt_obj he) (hseIff (k, v) he)).2⟩

/-! ## model_json_schema unfolding -/

theorem mjs_defs_found {fuel : Nat} {inc : Bool} {schema ds : Entries}
    {res : Json} {d' : Entries}
    (hd : alookup schema "$defs" = some (.obj ds))
    (hres : resolveRefs fuel (.obj (dictErase schema "$defs")) ds = some (res, d')) :
    model_json_schema fuel inc schema =
      some (if inc then res else removeFields ["default"] res) := by
  unfold model_json_schema
  rw [hd]
  simp only
  rw [show defsEntries (.obj ds) = ds from rfl, hres]

theorem mjs_no_defs {fuel : Nat} {inc : Bool} {schema : Entries}
    (hd : alookup schema "$defs" = none) :
    model_json_schema fuel inc schema =
      some (if inc then .obj schema else removeFields ["default"] (.obj schema)) := by
  unfold model_json_schema
  rw [hd]

theorem le_foldr_max {f : String → Nat} {l : List String} {m : String}
    (hm : m ∈ l) : f m ≤ l.foldr (fun x acc => max (f x) acc) 0 := by
  induction l with
  | nil => simp at hm
  | cons x xs ih =>
    rcases List.mem_cons.mp hm with h1 | h1
    · subst h1
      simp only [List.foldr]
      omega
    · have := ih h1
      simp only [List.foldr]
      omega

theorem dictErase_of_none {es : Entries} {key : String}
    (h : alookup es key = none) : dictErase es key = es := by
  induction es with
  | nil => rfl
  | cons e rest ih =>
    obtain ⟨k, v⟩ := e
    have hall := alookup_eq_none.mp h
    have hk : ¬ k = key := hall (k, v) (List.mem_cons_self _ _)
    rw [dictErase_cons_ne hk,
      ih (alookup_eq_none.mpr (fun e he => hall e (List.mem_cons_of_mem _ he)))]

/-- C1: for every schema whose pydantic-generated JSON tree is sane (the shape
discipline pydantic output obeys, relative to the names defined under
"$defs") and whose "$ref" dependency graph over those definitions is acyclic
(witnessed by a rank function), BaseModel.model_json_schema returns, for some
fuel, a tree with no "$defs" key and no "$ref" key anywhere: resolve_refs
inlines every referenced definition, including definitions reached through a
single-item allOf wrapper. -/
theorem claim_C1_model_json_schema_resolves_all_refs
    (schema ds : Entries) (rank : String → Nat)
    (hdefs : alookup schema "$defs" = some (.obj ds) ∨
             (alookup schema "$defs" = none ∧ ds = []))
    (hsane : saneB (ds.map Prod.fst) (.obj (dictErase schema "$defs")) = true)
    (hgood : goodDefsB (ds.map Prod.fst) ds = true)
    (hrank : rankOkB rank ds = true) :
    ∃ fuel out, model_json_schema fuel false schema = some out ∧
      noKeyB "$ref" out = true ∧ noKeyB "$defs" out = true := by
  rcases hdefs with hd | ⟨hd, hds⟩
  · obtain ⟨fuel, s', d', hres⟩ :=
      resolve_defined (ds.map Prod.fst) rank
        ((refsInJ (.obj (dictErase schema "$defs"))).foldr
          (fun x acc => max (rank x) acc) 0 + 1)
        (sizeOf (Json.obj (dictErase schema "$defs")))
        (.obj (dictErase schema "$defs")) (Nat.le_refl _) ds hsane
        (goodDefsP_of_B hgood) (rankOkP_of_B hrank)
        (fun m hm => by have := @le_foldr_max rank _ _ hm; omega)
    have hclean :=
      ((resolve_clean (ds.map Prod.fst) fuel).1 _ _ _ _ hsane
        (goodDefsP_of_B hgood) hres).1
    have hnk := clean_noKey s' hclean
    exact ⟨fuel, removeFields ["default"] s',
      by rw [mjs_defs_found hd hres]; simp,
      removeFields_noKey _ _ _ hnk.1, removeFields_noKey _ _ _ hnk.2⟩
  · subst hds
    rw [dictErase_of_none hd] at hsane
    have hnk := sane_noKeys _ (by simpa using hsane)
    exact ⟨1, removeFields ["default"] (.obj schema),
      by rw [mjs_no_defs hd]; simp,
      removeFields_noKey _ _ _ hnk.1, removeFields_noKey _ _ _ hnk.2⟩

theorem claim_C1_witness :
    ∃ fuel out,
      model_json_schema fuel false
        [("type", .str "object"),
         ("properties", .obj [("a", .obj
            [("allOf", .arr [.obj [("$ref", .str "#/$defs/A")]]),
             ("default", .null)])]),
         ("$defs", .obj
            [("A", .obj [("type", .str "object"),
                ("properties", .obj [("b", .obj [("$ref", .str "#/$defs/B")])])]),
             ("B", .obj [("type", .str "string")])])] = some out ∧
      noKeyB "$ref" out = true ∧ noKeyB "$defs" out = true :=
  claim_C1_model_json_schema_resolves_all_refs
    [("type", .str "object"),
     ("properties", .obj [("a", .obj
        [("allOf", .arr [.obj [("$ref", .str "#/$defs/A")]]),
         ("default", .null)])]),
     ("$defs", .obj
        [("A", .obj [("type", .str "object"),
            ("properties", .obj [("b", .obj [("$ref", .str "#/$defs/B")])])]),
         ("B", .obj [("type", .str "string")])])]
    [("A", .obj [("type", .str "object"),
        ("properties", .obj [("b", .obj [("$ref", .str "#/$defs/B")])])]),
     ("B", .obj [("type", .str "string")])]
    (fun n => if n = "A" then 1 else 0)
    (Or.inl rfl) rfl rfl rfl

/-- C9: resolve_refs terminates on every sane schema tree whose "$ref"
dependency graph over the supplied definitions is acyclic; the rank function
witnesses the acyclicity under which the recursion is well-founded, and the
conclusion exhibits fuel on which the fuelled model of the recursion
completes. -/
theorem claim_C9_resolve_refs_terminates
    (s : Json) (d : Entries) (rank : String → Nat)
    (hsane : saneB (d.map Prod.fst) s = true)
    (hgood : goodDefsB (d.map Prod.fst) d = true)
    (hrank : rankOkB rank d = true) :
    ∃ fuel s' d', resolveRefs fuel s d = some (s', d') := by
  exact resolve_defined (d.map Prod.fst) rank
    ((refsInJ s).foldr (fun x acc => max (rank x) acc) 0 + 1)
    (sizeOf s) s (Nat.le_refl _) d hsane
    (goodDefsP_of_B hgood) (rankOkP_of_B hrank)
    (fun m hm => by have := @le_foldr_max rank _ _ hm; omega)

theorem claim_C9_witness :
    ∃ fuel s' d',
      resolveRefs fuel (.obj [("$ref", .str "#/$defs/T")])
        [("T", .obj [("type", .str "string")])] = some (s', d') :=
  claim_C9_resolve_refs_terminates
    (.obj [("$ref", .str "#/$defs/T")])
    [("T", .obj [("type", .str "string")])]
    (fun _ => 0) rfl rfl rfl

/-! ## Defaults removal (model_json_schema include_defaults) -/

theorem mjs_inv {fuel : Nat} {inc : Bool} {schema : Entries} {out : Json}
    (h : model_json_schema fuel inc schema = some out) :
    (alookup schema "$defs" = none ∧
      out = (if inc then .obj schema else removeFields ["default"] (.obj schema))) ∨
    (∃ dv res d', alookup schema "$defs" = some dv ∧
      resolveRefs fuel (.obj (dictErase schema "$defs"))
        (defsEntries dv) = some (res, d') ∧
      out = (if inc then res else removeFields ["default"] res)) := by
  unfold model_json_schema at h
  cases hd : alookup schema "$defs" with
  | none =>
    rw [hd] at h
    simp only [Option.some.injEq] at h
    exact Or.inl ⟨rfl, h.symm⟩
  | some dv =>
    rw [hd] at h
    simp only at h
    cases hres : resolveRefs fuel (.obj (dictErase schema "$defs")) (defsEntries dv) with
    | none => rw [hres] at h; simp at h
    | some val =>
      obtain ⟨res, d'⟩ := val
      rw [hres] at h
      simp only [Option.some.injEq] at h
      exact Or.inr ⟨dv, res, d', rfl, hres, h.symm⟩

theorem mjs_defs_found_any {fuel : Nat} {inc : Bool} {schema : Entries}
    {dv res : Json} {d' : Entries}
    (hd : alookup schema "$defs" = some dv)
    (hres : resolveRefs fuel (.obj (dictErase schema "$defs"))
      (defsEntries dv) = some (res, d')) :
    model_json_schema fuel inc schema =
      some (if inc then res else removeFields ["default"] res) := by
  unfold model_json_schema
  rw [hd]
  simp only
  rw [hres]

/-- C3 (amended): BaseModel.model_json_schema without include_defaults returns
the include_defaults result with remove_fields applied for "default", so in
its output no object node that carries a "type" key carries a "default" key;
defaults on nodes without a "type" key (for instance anyOf nodes produced for
optional fields) are not touched, and with include_defaults=True nothing is
removed. -/
theorem claim_C3_defaults_removed_at_typed_nodes
    (fuel : Nat) (schema : Entries) (out : Json)
    (h : model_json_schema fuel true schema = some out) :
    model_json_schema fuel false schema = some (removeFields ["default"] out) ∧
    strippedOkB ["default"] (removeFields ["default"] out) = true := by
  refine ⟨?_, removeFields_strippedOk _ _⟩
  rcases mjs_inv h with ⟨hd, hout⟩ | ⟨dv, res, d', hd, hres, hout⟩
  · simp only [if_pos rfl] at hout
    subst hout
    rw [mjs_no_defs hd]
    simp
  · simp only [if_pos rfl] at hout
    subst hout
    rw [mjs_defs_found_any hd hres]
    simp

theorem claim_C3_witness :
    model_json_schema 1 false
      [("type", .str "object"),
       ("properties", .obj [("y", .obj
          [("type", .str "integer"), ("default", .num 0)])])] =
      some (removeFields ["default"]
        (.obj [("type", .str "object"),
          ("properties", .obj [("y", .obj
            [("type", .str "integer"), ("default", .num 0)])])])) ∧
    strippedOkB ["default"] (removeFields ["default"]
      (.obj [("type", .str "object"),
        ("properties", .obj [("y", .obj
          [("type", .str "integer"), ("default", .num 0)])])])) = true :=
  claim_C3_defaults_removed_at_typed_nodes 1
    [("type", .str "object"),
     ("properties", .obj [("y", .obj
        [("type", .str "integer"), ("default", .num 0)])])]
    (.obj [("type", .str "object"),
      ("properties", .obj [("y", .obj
        [("type", .str "integer"), ("default", .num 0)])])])
    rfl

theorem claim_C3_counterexample :
    ∃ out, model_json_schema 1 false
      [("type", .str "object"),
       ("properties", .obj [("x", .obj
          [("anyOf", .arr [.obj [("type", .str "integer")],
                           .obj [("type", .str "null")]]),
           ("default", .null)])])] = some out ∧
      noKeyB "default" out = false :=
  ⟨_, rfl, rfl⟩

/-! ## Structural union -/

theorem alookup_dictUpdate {b : Entries} (hb : nodupKeysB b = true) :
    ∀ (a : Entries) (k : String),
    alookup (dictUpdate a b) k = (alookup b k).or (alookup a k) := by
  induction b with
  | nil => intro a k; simp [dictUpdate, alookup, Option.or]
  | cons e rest ih =>
    intro a k
    obtain ⟨k0, v0⟩ := e
    rw [nodupKeysB_cons] at hb
    have h1 : dictUpdate a ((k0, v0) :: rest) =
        dictUpdate (dictInsert a k0 v0) rest := by
      simp [dictUpdate]
    rw [h1, ih hb.2]
    by_cases hk : k0 = k
    · subst hk
      rw [alookup_cons_self, alookup_dictInsert]
      have hrest : alookup rest k0 = none := alookup_eq_none.mpr hb.1
      rw [hrest]
      simp [Option.or]
    · rw [alookup_cons_ne hk, alookup_dictInsert,
        if_neg (fun h : k = k0 => hk h.symm)]

theorem foldl_dictUpdate_lookup : ∀ mprops : List Entries,
    (∀ ps ∈ mprops, nodupKeysB ps = true) →
    ∀ (a : Entries) (k : String),
    alookup (mprops.foldl dictUpdate a) k =
      mprops.foldl (fun acc ps => (alookup ps k).or acc) (alookup a k) := by
  intro mprops
  induction mprops with
  | nil => intro _ a k; rfl
  | cons ps rest ih =>
    intro hnd a k
    simp only [List.foldl]
    rw [ih (fun q hq => hnd q (List.mem_cons_of_mem _ hq)) (dictUpdate a ps) k,
      alookup_dictUpdate (hnd ps (List.mem_cons_self _ _))]

theorem structuralUnionFold_spec : ∀ (members : List Json) (mprops : List Entries),
    List.Forall₂ (fun s ps => ∃ es, s = Json.obj es ∧
      alookup es "properties" = some (.obj ps)) members mprops →
    ∀ (props0 : Entries) (anyOf0 : List Json),
    structuralUnionFold members props0 anyOf0 =
      some (mprops.foldl dictUpdate props0,
            anyOf0 ++ members.map (removeFields structuralUnionStrippedFields)) := by
  intro members
  induction members with
  | nil =>
    intro mprops hm props0 anyOf0
    cases hm
    simp [structuralUnionFold]
  | cons s rest ih =>
    intro mprops hm props0 anyOf0
    cases hm with
    | cons hhead htail =>
      obtain ⟨es, hs, hps⟩ := hhead
      subst hs
      rename_i ps pst
      rw [show structuralUnionFold (Json.obj es :: rest) props0 anyOf0 =
          structuralUnionFold rest (dictUpdate props0 ps)
            (anyOf0 ++ [removeFields structuralUnionStrippedFields (.obj es)]) from by
        simp only [structuralUnionFold]
        rw [hps]]
      rw [ih pst htail]
      simp [List.foldl]

/-- C2: the schema StructuralUnion builds from its member model schemas has
type "object"; its properties are the union of the members' properties with a
later member overriding an earlier one on a shared name; and its anyOf holds
each member schema with the keys description, type, default,
additionalProperties, nullable and x-kubernetes-preserve-unknown-fields
removed from every dict node of that member that carries a "type" key. -/
theorem claim_C2_structural_union_schema
    (members : List Json) (mprops : List Entries) (doc : Option String)
    (hm : List.Forall₂ (fun s ps => ∃ es, s = Json.obj es ∧
        alookup es "properties" = some (.obj ps) ∧ nodupKeysB ps = true)
      members mprops) :
    ∃ oes P,
      structuralUnionJsonSchema members doc = some (.obj oes) ∧
      alookup oes "type" = some (.str "object") ∧
      alookup oes "properties" = some (.obj P) ∧
      (∀ k, alookup P k =
        mprops.foldl (fun acc ps => (alookup ps k).or acc) none) ∧
      alookup oes "anyOf" =
        some (.arr (members.map (removeFields structuralUnionStrippedFields))) ∧
      (∀ s' ∈ members.map (removeFields structuralUnionStrippedFields),
        strippedOkB structuralUnionStrippedFields s' = true) := by
  have hm' : List.Forall₂ (fun s ps => ∃ es, s = Json.obj es ∧
      alookup es "properties" = some (.obj ps)) members mprops :=
    hm.imp (fun s ps h => by
      obtain ⟨es, h1, h2, h3⟩ := h
      exact ⟨es, h1, h2⟩)
  have hnodups : ∀ ps ∈ mprops, nodupKeysB ps = true := by
    intro ps hps
    obtain ⟨s, hs, hr⟩ := forall2_mem_right hm hps
    obtain ⟨es, h1, h2, h3⟩ := hr
    exact h3
  have hfold := structuralUnionFold_spec members mprops hm' [] []
  have hstripped : ∀ s' ∈ members.map (removeFields structuralUnionStrippedFields),
      strippedOkB structuralUnionStrippedFields s' = true := by
    intro s' hs'
    obtain ⟨y, hy, he⟩ := List.mem_map.mp hs'
    rw [← he]
    exact removeFields_strippedOk _ _
  have hlookupP : ∀ k, alookup (mprops.foldl dictUpdate []) k =
      mprops.foldl (fun acc ps => (alookup ps k).or acc) none := by
    intro k
    rw [foldl_dictUpdate_lookup mprops hnodups [] k]
    rfl
  have hbase : ∀ oes : Entries,
      oes = [("type", Json.str "object"),
        ("properties", Json.obj (mprops.foldl dictUpdate [])),
        ("anyOf", Json.arr (members.map (removeFields structuralUnionStrippedFields)))] →
      alookup oes "type" = some (.str "object") ∧
      alookup oes "properties" = some (.obj (mprops.foldl dictUpdate [])) ∧
      alookup oes "anyOf" =
        some (.arr (members.map (removeFields structuralUnionStrippedFields))) := by
    intro oes h
    subst h
    refine ⟨rfl, ?_, ?_⟩
    · rw [alookup_cons_ne (by decide), alookup_cons_self]
    · rw [alookup_cons_ne (by decide), alookup_cons_ne (by decide), alookup_cons_self]
  cases doc with
  | none =>
    obtain ⟨h1, h2, h3⟩ := hbase _ rfl
    refine ⟨_, mprops.foldl dictUpdate [], ?_, h1, h2, hlookupP, h3, hstripped⟩
    unfold structuralUnionJsonSchema
    rw [hfold]
    simp only [List.nil_append]
  | some dstr =>
    by_cases hd : dstr = ""
    · obtain ⟨h1, h2, h3⟩ := hbase _ rfl
      refine ⟨_, mprops.foldl dictUpdate [], ?_, h1, h2, hlookupP, h3, hstripped⟩
      unfold structuralUnionJsonSchema
      rw [hfold]
      simp only [List.nil_append]
      rw [if_pos hd]
    · obtain ⟨h1, h2, h3⟩ := hbase _ rfl
      refine ⟨dictInsert
          [("type", Json.str "object"),
            ("properties", Json.obj (mprops.foldl dictUpdate [])),
            ("anyOf", Json.arr (members.map (removeFields structuralUnionStrippedFields)))]
          "description" (.str dstr), mprops.foldl dictUpdate [],
        ?_, ?_, ?_, hlookupP, ?_, hstripped⟩
      · unfold structuralUnionJsonSchema
        rw [hfold]
        simp only [List.nil_append]
        rw [show (if dstr = "" then
            [("type", Json.str "object"),
              ("properties", Json.obj (mprops.foldl dictUpdate [])),
              ("anyOf", Json.arr (members.map (removeFields structuralUnionStrippedFields)))]
          else dictInsert
            [("type", Json.str "object"),
              ("properties", Json.obj (mprops.foldl dictUpdate [])),
              ("anyOf", Json.arr (members.map (removeFields structuralUnionStrippedFields)))]
            "description" (Json.str dstr)) = dictInsert
            [("type", Json.str "object"),
              ("properties", Json.obj (mprops.foldl dictUpdate [])),
              ("anyOf", Json.arr (members.map (removeFields structuralUnionStrippedFields)))]
            "description" (Json.str dstr) from if_neg hd]
      · rw [alookup_dictInsert, if_neg (by decide)]
        exact h1
      · rw [alookup_dictInsert, if_neg (by decide)]
        exact h2
      · rw [alookup_dictInsert, if_neg (by decide)]
        exact h3

/-- Witness for C2: two concrete members sharing the property name "q"; the
union schema exists with type "object", merged properties and stripped anyOf. -/
theorem claim_C2_witness :
    ∃ oes P,
      structuralUnionJsonSchema
        [Json.obj [("type", Json.str "object"),
           ("properties", Json.obj
             [("p", Json.obj [("type", Json.str "integer")]),
              ("q", Json.obj [("type", Json.str "string")])])],
         Json.obj [("type", Json.str "object"),
           ("properties", Json.obj
             [("q", Json.obj [("type", Json.str "boolean")])])]]
        (some "A union.") = some (.obj oes) ∧
      alookup oes "type" = some (.str "object") ∧
      alookup oes "properties" = some (.obj P) ∧
      (∀ k, alookup P k =
        [[("p", Json.obj [("type", Json.str "integer")]),
          ("q", Json.obj [("type", Json.str "string")])],
         [("q", Json.obj [("type", Json.str "boolean")])]].foldl
          (fun acc ps => (alookup ps k).or acc) none) ∧
      alookup oes "anyOf" =
        some (.arr (List.map (removeFields structuralUnionStrippedFields)
          [Json.obj [("type", Json.str "object"),
             ("properties", Json.obj
               [("p", Json.obj [("type", Json.str "integer")]),
                ("q", Json.obj [("type", Json.str "string")])])],
           Json.obj [("type", Json.str "object"),
             ("properties", Json.obj
               [("q", Json.obj [("type", Json.str "boolean")])])]])) ∧
      (∀ s' ∈ List.map (removeFields structuralUnionStrippedFields)
          [Json.obj [("type", Json.str "object"),
             ("properties", Json.obj
               [("p", Json.obj [("type", Json.str "integer")]),
                ("q", Json.obj [("type", Json.str "string")])])],
           Json.obj [("type", Json.str "object"),
             ("properties", Json.obj
               [("q", Json.obj [("type", Json.str "boolean")])])]],
        strippedOkB structuralUnionStrippedFields s' = true) :=
  claim_C2_structural_union_schema _ _ _
    (List.Forall₂.cons ⟨_, rfl, rfl, rfl⟩
      (List.Forall₂.cons ⟨_, rfl, rfl, rfl⟩ List.Forall₂.nil))

/-- C4: the Any and Dict schema hooks set x-kubernetes-preserve-unknown-fields
to true; the BaseModel schema hook sets it when the model config has
extra = "allow", and for any other extra it leaves the key exactly as the
handler produced it (in particular it does not add it). -/
theorem claim_C4_preserve_unknown_fields (js : Entries) (extra : Option String)
    (hx : extra ≠ some "allow") :
    alookup (anyGetJsonSchema js) "x-kubernetes-preserve-unknown-fields" =
      some (.bool true) ∧
    alookup (dictGetJsonSchema js) "x-kubernetes-preserve-unknown-fields" =
      some (.bool true) ∧
    alookup (baseModelGetJsonSchema (some "allow") js)
      "x-kubernetes-preserve-unknown-fields" = some (.bool true) ∧
    alookup (baseModelGetJsonSchema extra js)
      "x-kubernetes-preserve-unknown-fields" =
      alookup js "x-kubernetes-preserve-unknown-fields" := by
  refine ⟨?_, ?_, ?_, ?_⟩
  · rw [anyGetJsonSchema, alookup_dictInsert, if_pos rfl]
  · rw [dictGetJsonSchema, alookup_dictInsert, if_pos rfl]
  · rw [baseModelGetJsonSchema]
    rw [if_pos rfl, alookup_dictInsert, if_pos rfl]
  · rw [baseModelGetJsonSchema]
    rw [if_neg hx]
    have h1 : alookup (dictErase js "title")
        "x-kubernetes-preserve-unknown-fields" =
        alookup js "x-kubernetes-preserve-unknown-fields" := by
      rw [alookup_dictErase, if_neg (by decide)]
    cases hp : alookup (dictErase js "title") "properties" with
    | none => exact h1
    | some pv =>
      cases pv with
      | obj ps =>
        rw [alookup_dictInsert, if_neg (by decide)]
        exact h1
      | null => exact h1
      | bool b => exact h1
      | num n => exact h1
      | str s => exact h1
      | arr items => exact h1

/-- Witness for C4 at a concrete handler schema lacking the key, with
extra = some "forbid". -/
theorem claim_C4_witness :
    (some "forbid" : Option String) ≠ some "allow" ∧
    (alookup (anyGetJsonSchema [("title", Json.str "T")])
      "x-kubernetes-preserve-unknown-fields" = some (.bool true) ∧
    alookup (dictGetJsonSchema [("title", Json.str "T")])
      "x-kubernetes-preserve-unknown-fields" = some (.bool true) ∧
    alookup (baseModelGetJsonSchema (some "allow") [("title", Json.str "T")])
      "x-kubernetes-preserve-unknown-fields" = some (.bool true) ∧
    alookup (baseModelGetJsonSchema (some "forbid") [("title", Json.str "T")])
      "x-kubernetes-preserve-unknown-fields" =
      alookup [("title", Json.str "T")] "x-kubernetes-preserve-unknown-fields") :=
  ⟨by decide, claim_C4_preserve_unknown_fields [("title", Json.str "T")]
    (some "forbid") (by decide)⟩

/-! ## Mapper operations -/

/-- C5: Mapper.fetch returns None exactly when the underlying fetch raised an
ApiError with status code 404; any other ApiError propagates unchanged; on a
successful fetch the result is the data validated into the model class. -/
theorem claim_C5_mapper_fetch {Data Model : Type} (model_validate : Data → Model)
    (fetchResult : Except ApiError Data) :
    (mapperFetch model_validate fetchResult = .ok none ↔
      ∃ exc, fetchResult = .error exc ∧ exc.status_code = 404) ∧
    (∀ exc, fetchResult = .error exc → exc.status_code ≠ 404 →
      mapperFetch model_validate fetchResult = .error exc) ∧
    (∀ data, fetchResult = .ok data →
      mapperFetch model_validate fetchResult = .ok (some (model_validate data))) := by
  refine ⟨⟨?_, ?_⟩, ?_, ?_⟩
  · intro h
    cases fetchResult with
    | error exc =>
      by_cases h4 : exc.status_code = 404
      · exact ⟨exc, rfl, h4⟩
      · simp [mapperFetch, h4] at h
    | ok data => simp [mapperFetch] at h
  · rintro ⟨exc, rfl, h4⟩
    simp [mapperFetch, h4]
  · rintro exc rfl h4
    simp [mapperFetch, h4]
  · rintro data rfl
    rfl

/-- Witness for C5 at concrete results: a 404 error, a 500 error and a
successful fetch of the number 5. -/
theorem claim_C5_witness :
    (mapperFetch (fun n : Nat => n + 1) (.error ⟨404⟩) = .ok none ↔
      ∃ exc, (.error ⟨404⟩ : Except ApiError Nat) = .error exc ∧
        exc.status_code = 404) ∧
    ((.error ⟨500⟩ : Except ApiError Nat) = .error ⟨500⟩ →
      (500 : Nat) ≠ 404 →
      mapperFetch (fun n : Nat => n + 1) (.error ⟨500⟩) = .error ⟨500⟩) ∧
    mapperFetch (fun n : Nat => n + 1) (.ok 5) = .ok (some 6) :=
  ⟨(claim_C5_mapper_fetch (fun n : Nat => n + 1) (.error ⟨404⟩)).1,
   fun h1 h2 => (claim_C5_mapper_fetch (fun n : Nat => n + 1)
     (.error ⟨500⟩)).2.1 ⟨500⟩ h1 h2,
   (claim_C5_mapper_fetch (fun n : Nat => n + 1) (.ok 5)).2.2 5 rfl⟩

/-- C6 (corrected): remove_finalizer removes only the first occurrence, so the
finalizer is guaranteed absent afterwards only when it occurred at most once;
when it is absent to begin with the instance is returned unchanged with no
save; when present, the result's finalizer list is the original with the
first occurrence removed and a save is performed. -/
theorem claim_C6_remove_finalizer {Spec Status : Type} (newRV fin : String)
    (inst : ModelInstance Spec Status) :
    (inst.metadata.finalizers.count fin ≤ 1 →
      fin ∉ (remove_finalizer newRV inst fin).1.metadata.finalizers) ∧
    (fin ∉ inst.metadata.finalizers →
      remove_finalizer newRV inst fin = (inst, false)) ∧
    (fin ∈ inst.metadata.finalizers →
      (remove_finalizer newRV inst fin).1.metadata.finalizers =
        inst.metadata.finalizers.erase fin ∧
      (remove_finalizer newRV inst fin).2 = true) := by
  refine ⟨?_, ?_, ?_⟩
  · intro hcount
    by_cases hm : fin ∈ inst.metadata.finalizers
    · simp only [remove_finalizer, if_pos hm, save_instance]
      intro habs
      have h1 : 0 < (inst.metadata.finalizers.erase fin).count fin :=
        List.count_pos_iff.mpr habs
      have h2 : (inst.metadata.finalizers.erase fin).count fin =
          inst.metadata.finalizers.count fin - 1 := List.count_erase_self _ _
      omega
    · simp only [remove_finalizer, if_neg hm]
      exact hm
  · intro hm
    simp only [remove_finalizer, if_neg hm]
  · intro hm
    simp only [remove_finalizer, if_pos hm, save_instance]
    exact ⟨by trivial, by trivial⟩

/-- Witness for C6 on a singleton finalizer list and on a list lacking the
finalizer. -/
theorem claim_C6_witness :
    (["f"].count "f" ≤ 1 →
      "f" ∉ (remove_finalizer "rv2"
        (⟨⟨"n", none, "rv", ["f"]⟩, 0, 0⟩ : ModelInstance Nat Nat)
        "f").1.metadata.finalizers) ∧
    ("g" ∉ ["f"] →
      remove_finalizer "rv2"
        (⟨⟨"n", none, "rv", ["f"]⟩, 0, 0⟩ : ModelInstance Nat Nat) "g" =
        (⟨⟨"n", none, "rv", ["f"]⟩, 0, 0⟩, false)) :=
  ⟨(claim_C6_remove_finalizer "rv2" "f" ⟨⟨"n", none, "rv", ["f"]⟩, 0, 0⟩).1,
   (claim_C6_remove_finalizer "rv2" "g" ⟨⟨"n", none, "rv", ["f"]⟩, 0, 0⟩).2.1⟩

/-- Counterexample to the spec's C6: with the finalizer present twice,
remove_finalizer pops only the first occurrence, so the finalizer is still
present in the returned instance. -/
theorem claim_C6_counterexample :
    "f" ∈ (remove_finalizer "rv2"
      (⟨⟨"n", none, "rv", ["f", "f"]⟩, 0, 0⟩ : ModelInstance Nat Nat)
      "f").1.metadata.finalizers := by decide

/-- C7: after ensure_finalizer the finalizer is present; when already present
the instance is returned unchanged with no save; hence a second application
returns the first result unchanged with no save (idempotence). -/
theorem claim_C7_ensure_finalizer {Spec Status : Type} (newRV newRV2 fin : String)
    (inst : ModelInstance Spec Status) :
    fin ∈ (ensure_finalizer newRV inst fin).1.metadata.finalizers ∧
    (fin ∈ inst.metadata.finalizers →
      ensure_finalizer newRV inst fin = (inst, false)) ∧
    ensure_finalizer newRV2 (ensure_finalizer newRV inst fin).1 fin =
      ((ensure_finalizer newRV inst fin).1, false) := by
  have hmem : fin ∈ (ensure_finalizer newRV inst fin).1.metadata.finalizers := by
    by_cases hm : fin ∈ inst.metadata.finalizers
    · simp only [ensure_finalizer, if_neg (not_not_intro hm)]
      exact hm
    · simp only [ensure_finalizer, if_pos hm, save_instance]
      exact List.mem_append_right _ (List.mem_singleton.mpr rfl)
  refine ⟨hmem, ?_, ?_⟩
  · intro hm
    simp only [ensure_finalizer, if_neg (not_not_intro hm)]
  · rw [ensure_finalizer, if_neg (not_not_intro hmem)]

/-- Witness for C7 on an instance missing the finalizer: it is added, and the
second application is a no-op. -/
theorem claim_C7_witness :
    "f" ∈ (ensure_finalizer "rv2"
      (⟨⟨"n", none, "rv", []⟩, 0, 0⟩ : ModelInstance Nat Nat)
      "f").1.metadata.finalizers ∧
    ensure_finalizer "rv3"
      (ensure_finalizer "rv2"
        (⟨⟨"n", none, "rv", []⟩, 0, 0⟩ : ModelInstance Nat Nat) "f").1 "f" =
      ((ensure_finalizer "rv2"
        (⟨⟨"n", none, "rv", []⟩, 0, 0⟩ : ModelInstance Nat Nat) "f").1, false) :=
  ⟨(claim_C7_ensure_finalizer "rv2" "rv3" "f" ⟨⟨"n", none, "rv", []⟩, 0, 0⟩).1,
   (claim_C7_ensure_finalizer "rv2" "rv3" "f" ⟨⟨"n", none, "rv", []⟩, 0, 0⟩).2.2⟩

/-- C8: the body save_instance_status sends holds exactly the instance's
resource version under metadata.resourceVersion and the status dumped with
exclude_defaults = true; the only in-memory mutation is setting
metadata.resource_version to the value returned by the API, every other field
of the instance being unchanged. -/
theorem claim_C8_save_instance_status {Spec Status : Type}
    (statusDump : Bool → Status → Json) (newRV : String)
    (inst : ModelInstance Spec Status) :
    ∃ body inst2,
      save_instance_status statusDump newRV inst = (body, inst2) ∧
      body = .obj
        [("metadata", .obj
          [("resourceVersion", .str inst.metadata.resource_version)]),
         ("status", statusDump true inst.status)] ∧
      inst2.spec = inst.spec ∧
      inst2.status = inst.status ∧
      inst2.metadata.name = inst.metadata.name ∧
      inst2.metadata.nspace = inst.metadata.nspace ∧
      inst2.metadata.finalizers = inst.metadata.finalizers ∧
      inst2.metadata.resource_version = newRV :=
  ⟨_, _, rfl, rfl, rfl, rfl, rfl, rfl, rfl, rfl⟩

/-! ## snake_to_pascal -/

theorem splitOnChar_ne_nil (sep : Char) : ∀ l : List Char, splitOnChar sep l ≠ [] := by
  intro l
  cases l with
  | nil => simp [splitOnChar]
  | cons c cs =>
    rw [splitOnChar]
    cases h : splitOnChar sep cs with
    | nil => simp
    | cons seg rest => by_cases hc : c = sep <;> simp [hc]

theorem splitOnChar_cons_eq (sep c : Char) (cs : List Char)
    (s0 : List Char) (rest : List (List Char))
    (h : splitOnChar sep cs = s0 :: rest) :
    splitOnChar sep (c :: cs) =
      if c = sep then [] :: s0 :: rest else (c :: s0) :: rest := by
  rw [splitOnChar, h]

theorem mem_splitOnChar_not_mem (sep : Char) :
    ∀ (l : List Char) (seg : List Char), seg ∈ splitOnChar sep l → sep ∉ seg := by
  intro l
  induction l with
  | nil =>
    intro seg hseg
    simp [splitOnChar] at hseg
    subst hseg
    simp
  | cons c cs ih =>
    intro seg hseg
    cases h : splitOnChar sep cs with
    | nil => exact absurd h (splitOnChar_ne_nil sep cs)
    | cons s0 rest =>
      rw [splitOnChar_cons_eq sep c cs s0 rest h] at hseg
      by_cases hc : c = sep
      · rw [if_pos hc] at hseg
        rcases List.mem_cons.mp hseg with hseg | hseg
        · subst hseg; simp
        · exact ih seg (by rw [h]; exact hseg)
      · rw [if_neg hc] at hseg
        rcases List.mem_cons.mp hseg with hseg | hseg
        · subst hseg
          intro hmem
          rcases List.mem_cons.mp hmem with hh | ht
          · exact hc hh.symm
          · exact ih s0 (by rw [h]; exact List.mem_cons_self _ _) ht
        · exact ih seg (by rw [h]; exact List.mem_cons_of_mem _ hseg)

theorem splitOnChar_not_mem_eq (sep : Char) :
    ∀ l : List Char, sep ∉ l → splitOnChar sep l = [l] := by
  intro l
  induction l with
  | nil => intro _; rfl
  | cons c cs ih =>
    intro h
    have hc : ¬ c = sep := fun he => h (by rw [he]; exact List.mem_cons_self _ _)
    have hcs : sep ∉ cs := fun hm => h (List.mem_cons_of_mem _ hm)
    simp [splitOnChar, ih hcs, hc]

theorem char_toNat_ofNat_of_lt {n : Nat} (h : n < 55296) :
    (Char.ofNat n).toNat = n := by
  have hv : n.isValidChar := Or.inl h
  rw [Char.ofNat, dif_pos hv]
  rfl

theorem toUpper_eq_underscore {c : Char} (h : c.toUpper = '_') : c = '_' := by
  simp only [Char.toUpper] at h
  split at h
  · rename_i hcond
    obtain ⟨h1, h2⟩ := hcond
    exfalso
    have hval : (Char.ofNat (c.toNat - 32)).toNat = c.toNat - 32 :=
      char_toNat_ofNat_of_lt (by omega)
    rw [h] at hval
    rw [show ('_').toNat = 95 from rfl] at hval
    omega
  · exact h

theorem toLower_eq_underscore {c : Char} (h : c.toLower = '_') : c = '_' := by
  simp only [Char.toLower] at h
  split at h
  · rename_i hcond
    obtain ⟨h1, h2⟩ := hcond
    exfalso
    have hval : (Char.ofNat (c.toNat + 32)).toNat = c.toNat + 32 :=
      char_toNat_ofNat_of_lt (by omega)
    rw [h] at hval
    rw [show ('_').toNat = 95 from rfl] at hval
    omega
  · exact h

theorem capitalize_not_mem_underscore {seg : List Char} (h : '_' ∉ seg) :
    '_' ∉ capitalize seg := by
  cases seg with
  | nil => simp [capitalize]
  | cons c cs =>
    rw [capitalize]
    intro hmem
    rcases List.mem_cons.mp hmem with hh | ht
    · exact h (List.mem_cons.mpr (Or.inl (toUpper_eq_underscore hh.symm).symm))
    · obtain ⟨d, hd, hde⟩ := List.mem_map.mp ht
      exact h (List.mem_cons.mpr (Or.inr ((toLower_eq_underscore hde) ▸ hd)))

theorem snakeToPascalCore_no_underscore (l : List Char) :
    '_' ∉ snakeToPascalCore l := by
  rw [snakeToPascalCore]
  cases hs : splitOnChar '_' l with
  | nil => simp
  | cons first rest =>
    intro hmem
    rcases List.mem_append.mp hmem with hh | ht
    · exact mem_splitOnChar_not_mem '_' l first
        (by rw [hs]; exact List.mem_cons_self _ _) hh
    · obtain ⟨seg2, hseg2, hm2⟩ := List.mem_flatten.mp ht
      obtain ⟨seg, hseg, hcape⟩ := List.mem_map.mp hseg2
      have hns : '_' ∉ seg := mem_splitOnChar_not_mem '_' l seg
        (by rw [hs]; exact List.mem_cons_of_mem _ hseg)
      exact capitalize_not_mem_underscore hns (hcape ▸ hm2)

theorem snakeToPascalCore_id {l : List Char} (h : '_' ∉ l) :
    snakeToPascalCore l = l := by
  rw [snakeToPascalCore, splitOnChar_not_mem_eq '_' l h]
  simp

/-- C10: snake_to_pascal keeps the first underscore-separated segment and
capitalizes each later one, joined with no separator; consequently its output
has no underscore, it is the identity on underscore-free strings, and it is
idempotent. -/
theorem claim_C10_snake_to_pascal (name : String) :
    (∀ first rest, splitOnChar '_' name.data = first :: rest →
      (snake_to_pascal name).data = first ++ (rest.map capitalize).flatten) ∧
    '_' ∉ (snake_to_pascal name).data ∧
    ('_' ∉ name.data → snake_to_pascal name = name) ∧
    snake_to_pascal (snake_to_pascal name) = snake_to_pascal name := by
  have hdata : (snake_to_pascal name).data = snakeToPascalCore name.data := rfl
  refine ⟨?_, ?_, ?_, ?_⟩
  · intro first rest hsplit
    rw [hdata, snakeToPascalCore, hsplit]
  · rw [hdata]
    exact snakeToPascalCore_no_underscore name.data
  · intro h
    cases name with
    | mk data =>
      rw [snake_to_pascal]
      exact congrArg String.mk (snakeToPascalCore_id h)
  · have hno : '_' ∉ (snake_to_pascal name).data := by
      rw [hdata]
      exact snakeToPascalCore_no_underscore name.data
    have hid : snakeToPascalCore (snake_to_pascal name).data =
        (snake_to_pascal name).data := snakeToPascalCore_id hno
    cases hd : snake_to_pascal name with
    | mk d =>
      rw [hd] at hid
      rw [snake_to_pascal]
      exact congrArg String.mk hid

/-- Witness for C10: a concrete snake_case name, an underscore-free name, and
idempotence on the former. -/
theorem claim_C10_witness :
    '_' ∉ (snake_to_pascal "created_at").data ∧
    ('_' ∉ "createdAt".data → snake_to_pascal "createdAt" = "createdAt") ∧
    snake_to_pascal (snake_to_pascal "created_at") = snake_to_pascal "created_at" :=
  ⟨(claim_C10_snake_to_pascal "created_at").2.1,
   (claim_C10_snake_to_pascal "createdAt").2.2.1,
   (claim_C10_snake_to_pascal "created_at").2.2.2⟩
